import Mathlib

/-!
# Verification of the taze build-file generation engine

This development gives a shallow embedding, in Lean, of the core of the
`taze` build-file generator (the `tools/taze` tree of this repository):
the directory walker (`packages/walk.go`), its package-selection and
proto-companion-exclusion helpers, the resolver (`resolve` package), and
the merge pipeline driven from `main`.  File and path names are modelled
as lists of characters (`FName`), so that the byte-level suffix/prefix
tests performed by the Go code (`strings.HasSuffix`, `path.Clean`, ...)
can be reproduced and reasoned about exactly.

Definitions are translated from the Go sources.  Components of the
repository whose sources are not available here (the merger's
`MergeWithExisting`, `config.ApplyDirectives`, `config.InferProtoMode`)
are modelled from the specification document, and each such definition
says so in its doc comment.
-/

namespace Taze

/-- A file or directory base name, modelled as its list of characters. -/
abbrev FName := List Char

/-- The characters of the `".proto"` suffix tested by
`strings.HasSuffix(name, ".proto")` in `excludePbGoFiles`. -/
def protoSuffix : FName := '.' :: 'p' :: 'r' :: 'o' :: 't' :: 'o' :: []

/-- The characters of the `".pb.go"` suffix substituted by
`excludePbGoFiles`. -/
def pbGoSuffix : FName := '.' :: 'p' :: 'b' :: '.' :: 'g' :: 'o' :: []

/-- The characters of the `".go"` suffix tested in the classification
switch of `visit`. -/
def goSuffix : FName := '.' :: 'g' :: 'o' :: []

/-- `strings.HasSuffix(s, suf)`: `s` ends with the characters `suf`. -/
def hasSuffix (s suf : FName) : Bool :=
  decide (suf.length ≤ s.length) && decide (s.drop (s.length - suf.length) = suf)

/-- `name[:len(name)-len(".proto")]+".pb.go"`: the generated-file
companion of a schema file, as formed in `excludePbGoFiles`. -/
def pbGoCompanion (s : FName) : FName :=
  s.take (s.length - protoSuffix.length) ++ pbGoSuffix

/-- A name cannot end in `".proto"` and in `".pb.go"` at once: both
suffixes have length six, so they would have to be equal. -/
theorem not_hasSuffix_pbGo_of_hasSuffix_proto {s : FName}
    (h : hasSuffix s protoSuffix = true) : hasSuffix s pbGoSuffix = false := by
  by_contra hne
  have h2 : hasSuffix s pbGoSuffix = true := by
    cases hx : hasSuffix s pbGoSuffix with
    | true => rfl
    | false => exact absurd hx hne
  simp only [hasSuffix, Bool.and_eq_true, decide_eq_true_eq] at h h2
  have : protoSuffix = pbGoSuffix := by
    rw [← h.2, ← h2.2]
    rfl
  simp [protoSuffix, pbGoSuffix] at this

/-- Splitting a name that ends with `".proto"` into its stem and the
suffix: `s = s.take (s.length - 6) ++ ".proto"`. -/
theorem eq_take_append_proto {s : FName} (h : hasSuffix s protoSuffix = true) :
    s = s.take (s.length - protoSuffix.length) ++ protoSuffix := by
  simp only [hasSuffix, Bool.and_eq_true, decide_eq_true_eq] at h
  conv_lhs => rw [← List.take_append_drop (s.length - protoSuffix.length) s]
  rw [h.2]

/-- The companion map is injective on names ending in `".proto"`. -/
theorem pbGoCompanion_inj {p q : FName}
    (hp : hasSuffix p protoSuffix = true) (hq : hasSuffix q protoSuffix = true)
    (h : pbGoCompanion p = pbGoCompanion q) : p = q := by
  unfold pbGoCompanion at h
  have h' : p.take (p.length - protoSuffix.length) =
      q.take (q.length - protoSuffix.length) :=
    List.append_cancel_right h
  rw [eq_take_append_proto hp, eq_take_append_proto hq, h']

/-! ## `excludePbGoFiles` (walk.go)

Translated from `excludePbGoFiles(files []os.FileInfo, excluded map[string]bool)`:
for each entry name in directory-listing order, if the name is already in
the excluded set it is skipped; otherwise, if it ends in `".proto"`, the
companion `".pb.go"` name is added to the excluded set.  The Go function
mutates the map; here the set is threaded through a fold as a list. -/

/-- One step of the `excludePbGoFiles` loop body. -/
def excludePbGoStep (excluded : List FName) (name : FName) : List FName :=
  if name ∈ excluded then excluded
  else if hasSuffix name protoSuffix then pbGoCompanion name :: excluded
  else excluded

/-- `excludePbGoFiles`: the excluded set after scanning all entry names. -/
def excludePbGoFiles (files : List FName) (excluded : List FName) : List FName :=
  files.foldl excludePbGoStep excluded

/-- Everything added by `excludePbGoFiles` ends in `".pb.go"`, so a name
ending in `".proto"` is in the running set iff it was excluded at the
start. -/
theorem mem_excludePbGoStep_of_proto {acc : List FName} {name q : FName}
    (hq : hasSuffix q protoSuffix = true) :
    q ∈ excludePbGoStep acc name ↔ q ∈ acc := by
  unfold excludePbGoStep
  split
  · exact Iff.rfl
  · split
    · rename_i hproto
      constructor
      · intro hmem
        rcases List.mem_cons.mp hmem with hcomp | h
        · exfalso
          have : hasSuffix q pbGoSuffix = true := by
            rw [hcomp]
            simp [hasSuffix, pbGoCompanion]
          rw [not_hasSuffix_pbGo_of_hasSuffix_proto hq] at this
          exact Bool.false_ne_true this
        · exact h
      · intro h; exact List.mem_cons_of_mem _ h
    · exact Iff.rfl

/-- Membership in the result of `excludePbGoFiles`: a name is excluded
afterwards iff it was excluded before, or it is the `".pb.go"` companion
of some listed schema file that was not itself excluded before. -/
theorem mem_excludePbGoFiles_iff (files : List FName) (acc : List FName) (x : FName) :
    x ∈ excludePbGoFiles files acc ↔
      x ∈ acc ∨ ∃ q, q ∈ files ∧ hasSuffix q protoSuffix = true ∧
        q ∉ acc ∧ x = pbGoCompanion q := by
  induction files generalizing acc with
  | nil => simp [excludePbGoFiles]
  | cons name rest ih =>
    show x ∈ excludePbGoFiles rest (excludePbGoStep acc name) ↔ _
    rw [ih]
    constructor
    · rintro (hx | ⟨q, hqrest, hqproto, hqnot, hxeq⟩)
      · unfold excludePbGoStep at hx
        split at hx
        · exact Or.inl hx
        · split at hx
          · rename_i hnotmem hproto
            rcases List.mem_cons.mp hx with hcomp | h
            · exact Or.inr ⟨name, List.mem_cons_self _ _, hproto, hnotmem, hcomp⟩
            · exact Or.inl h
          · exact Or.inl hx
      · have : q ∉ acc := fun h =>
          hqnot ((mem_excludePbGoStep_of_proto hqproto).mpr h)
        exact Or.inr ⟨q, List.mem_cons_of_mem _ hqrest, hqproto, this, hxeq⟩
    · rintro (hx | ⟨q, hqmem, hqproto, hqnot, hxeq⟩)
      · left
        unfold excludePbGoStep
        split
        · exact hx
        · split
          · exact List.mem_cons_of_mem _ hx
          · exact hx
      · rcases List.mem_cons.mp hqmem with hqname | hqrest
        · left
          subst hqname
          unfold excludePbGoStep
          rw [if_neg hqnot, if_pos hqproto]
          exact hxeq ▸ List.mem_cons_self _ _
        · right
          refine ⟨q, hqrest, hqproto, ?_, hxeq⟩
          exact fun h => hqnot ((mem_excludePbGoStep_of_proto hqproto).mp h)

/-! ## Configuration enums (config.go) -/

/-- `config.ProtoMode`: how rules are generated for protos. -/
inductive ProtoMode where
  | defaultProto
  | disableProto
  | legacyProto
deriving DecidableEq, Repr

/-- `config.DependencyMode`: how imports outside the prefix are resolved. -/
inductive DependencyMode where
  | externalMode
  | vendorMode
deriving DecidableEq, Repr

/-- `config.ProtoModeFromString`. -/
def protoModeFromString (s : String) : Except String ProtoMode :=
  match s with
  | "default" => .ok .defaultProto
  | "disable" => .ok .disableProto
  | "legacy" => .ok .legacyProto
  | _ => .error ("unrecognized proto mode: " ++ s)

/-! ## Directory-entry classification (walk.go, `visit` lines 152-171)

`visit` lists the directory and sorts each entry into package source
files, other static files, or subdirectories, skipping entries matched by
the `switch`'s first case. -/

/-- One entry returned by `ioutil.ReadDir`: a base name and whether the
entry is a directory. -/
structure DirEnt where
  name : FName
  isDir : Bool
deriving DecidableEq, Repr

/-- The name `"vendor"`. -/
def vendorName : FName := "vendor".toList

/-- `base[0] == '.' || base[0] == '_'` (false for the empty name, which
the Go code tests separately first). -/
def startsWithDotOrUnderscore (n : FName) : Bool :=
  match n with
  | [] => false
  | c :: _ => c == '.' || c == '_'

/-- The first `case` of the classification switch: entries that are
skipped outright. -/
def entrySkipped (dm : DependencyMode) (excluded : List FName) (e : DirEnt) : Bool :=
  e.name.isEmpty || startsWithDotOrUnderscore e.name ||
    decide (e.name ∈ excluded) ||
    (decide (e.name = vendorName) && e.isDir && decide (dm = .externalMode))

/-- `strings.HasSuffix(base, ".go") || (c.ProtoMode != config.DisableProtoMode
&& strings.HasSuffix(base, ".proto"))`: the package-source test. -/
def isPkgFileName (pm : ProtoMode) (n : FName) : Bool :=
  hasSuffix n goSuffix ||
    (decide (pm ≠ .disableProto) && hasSuffix n protoSuffix)

/-- The three accumulating slices of the classification loop. -/
structure Classified where
  pkgFiles : List FName
  otherFiles : List FName
  subdirs : List FName
deriving DecidableEq, Repr

/-- One iteration of the classification loop over `files`. -/
def classifyStep (pm : ProtoMode) (dm : DependencyMode) (excluded : List FName)
    (acc : Classified) (e : DirEnt) : Classified :=
  if entrySkipped dm excluded e then acc
  else if e.isDir then { acc with subdirs := acc.subdirs ++ [e.name] }
  else if isPkgFileName pm e.name then { acc with pkgFiles := acc.pkgFiles ++ [e.name] }
  else { acc with otherFiles := acc.otherFiles ++ [e.name] }

/-- The classification loop of `visit`, started from empty slices. -/
def classifyEntries (pm : ProtoMode) (dm : DependencyMode) (excluded : List FName)
    (ents : List DirEnt) : Classified :=
  ents.foldl (classifyStep pm dm excluded) ⟨[], [], []⟩

/-- The classification fold, characterized as three filters of the entry
list. -/
theorem classifyEntries_eq (pm : ProtoMode) (dm : DependencyMode)
    (excluded : List FName) (ents : List DirEnt) (acc : Classified) :
    ents.foldl (classifyStep pm dm excluded) acc =
      ⟨acc.pkgFiles ++ ((ents.filter (fun e => !entrySkipped dm excluded e &&
          !e.isDir && isPkgFileName pm e.name)).map DirEnt.name),
       acc.otherFiles ++ ((ents.filter (fun e => !entrySkipped dm excluded e &&
          !e.isDir && !isPkgFileName pm e.name)).map DirEnt.name),
       acc.subdirs ++ ((ents.filter (fun e => !entrySkipped dm excluded e &&
          e.isDir)).map DirEnt.name)⟩ := by
  induction ents generalizing acc with
  | nil => simp
  | cons e rest ih =>
    rw [List.foldl_cons, ih]
    unfold classifyStep
    by_cases hskip : entrySkipped dm excluded e
    · simp [hskip]
    · by_cases hdir : e.isDir
      · simp [hskip, hdir]
      · by_cases hpkg : isPkgFileName pm e.name
        · simp [hskip, hdir, hpkg]
        · simp [hskip, hdir, hpkg]

/-- The excluded set used by classification, as assembled in `visit`
lines 135-150: the values of the directory's `exclude` directives,
augmented by `excludePbGoFiles` when the proto mode is the default one. -/
def visitExcludedSet (pm : ProtoMode) (directiveExcludes : List FName)
    (entryNames : List FName) : List FName :=
  if pm = .defaultProto then excludePbGoFiles entryNames directiveExcludes
  else directiveExcludes

/-- C8: in default proto mode, the `".pb.go"` companion of a listed
schema file ends up in the excluded set exactly when the schema file was
listed and not itself excluded by directive (or the companion was already
excluded by directive); in particular an excluded schema file does not
cause its companion to be excluded automatically. -/
theorem claim_C8_pbgo_companion_exclusion (entryNames directiveExcludes : List FName)
    (p : FName) (hp : hasSuffix p protoSuffix = true) :
    (pbGoCompanion p ∈ visitExcludedSet .defaultProto directiveExcludes entryNames ↔
      pbGoCompanion p ∈ directiveExcludes ∨
        (p ∈ entryNames ∧ p ∉ directiveExcludes)) := by
  unfold visitExcludedSet
  rw [if_pos rfl, mem_excludePbGoFiles_iff]
  constructor
  · rintro (h | ⟨q, hqmem, hqproto, hqnot, heq⟩)
    · exact Or.inl h
    · have : p = q := pbGoCompanion_inj hp hqproto heq
      subst this
      exact Or.inr ⟨hqmem, hqnot⟩
  · rintro (h | ⟨hpmem, hpnot⟩)
    · exact Or.inl h
    · exact Or.inr ⟨p, hpmem, hp, hpnot, rfl⟩

/-- Witness for C8 at concrete inputs: `a.proto` unexcluded puts
`a.pb.go` in the excluded set; `b.proto` excluded by directive does not
put `b.pb.go` there. -/
theorem claim_C8_pbgo_companion_exclusion_witness :
    pbGoCompanion "a.proto".toList ∈
      visitExcludedSet .defaultProto [] ["a.proto".toList] ∧
    pbGoCompanion "b.proto".toList ∉
      visitExcludedSet .defaultProto ["b.proto".toList] ["b.proto".toList] := by
  constructor
  · exact (claim_C8_pbgo_companion_exclusion _ _ _ (by decide)).mpr
      (Or.inr ⟨by decide, by decide⟩)
  · intro h
    rcases (claim_C8_pbgo_companion_exclusion _ _ _ (by decide)).mp h with
      h' | ⟨_, h2⟩
    · exact absurd h' (by decide)
    · exact h2 (by decide)

/-- C10: an entry whose name is empty, begins with `'.'` or `'_'`, is in
the excluded set, or is a `vendor` directory under external dependency
mode, contributes to none of the three classification outputs. -/
theorem claim_C10_skipped_entries_never_classified
    (pm : ProtoMode) (dm : DependencyMode) (excluded : List FName)
    (ents : List DirEnt) (e : DirEnt) (he : e ∈ ents)
    (hnodup : (ents.map DirEnt.name).Nodup)
    (hskip : entrySkipped dm excluded e = true) :
    e.name ∉ (classifyEntries pm dm excluded ents).pkgFiles ∧
    e.name ∉ (classifyEntries pm dm excluded ents).otherFiles ∧
    e.name ∉ (classifyEntries pm dm excluded ents).subdirs := by
  have hinj := List.inj_on_of_nodup_map hnodup
  unfold classifyEntries
  rw [classifyEntries_eq]
  refine ⟨?_, ?_, ?_⟩ <;>
  · simp only [List.nil_append, List.mem_map, List.mem_filter,
      Bool.and_eq_true, Bool.not_eq_true']
    rintro ⟨e', ⟨he', hcond⟩, hname⟩
    have : e' = e := hinj he' he hname
    subst this
    first
    | exact absurd hskip (by simp only [hcond.1.1]; exact Bool.false_ne_true)
    | exact absurd hskip (by simp only [hcond.1]; exact Bool.false_ne_true)

/-- Witness for C10 at a concrete directory listing. -/
theorem claim_C10_skipped_entries_never_classified_witness :
    ".git".toList ∉ (classifyEntries .defaultProto .externalMode []
      [⟨".git".toList, true⟩, ⟨"a.go".toList, false⟩]).pkgFiles ∧
    ".git".toList ∉ (classifyEntries .defaultProto .externalMode []
      [⟨".git".toList, true⟩, ⟨"a.go".toList, false⟩]).otherFiles ∧
    ".git".toList ∉ (classifyEntries .defaultProto .externalMode []
      [⟨".git".toList, true⟩, ⟨"a.go".toList, false⟩]).subdirs :=
  claim_C10_skipped_entries_never_classified _ _ _ _ ⟨".git".toList, true⟩
    (by decide) (by decide) (by decide)

/-! ## Package selection (walk.go, `selectPackage` / `defaultPackageName`)

`buildPackage` groups source files by declared package name into a map of
candidate packages and then calls `selectPackage`.  The buildability test
`(*Package).isBuildable` lives in a source file that is not available
here, so it appears as an abstract predicate parameter; the selection
policy itself is translated from `selectPackage`. -/

/-- A candidate package, as far as selection and test-data marking are
concerned: its declared name and the `HasTestdata` flag. -/
structure GoPackage where
  name : FName
  hasTestdata : Bool
deriving DecidableEq, Repr

/-- The two error results of `selectPackage`: `build.NoGoError` (silent
at the call site) and `build.MultiplePackageError` (logged).  The Go
errors carry the directory and file lists for their messages; the model
keeps only the distinction the callers branch on. -/
inductive SelectErr where
  | noGoError
  | multiplePackageError
deriving DecidableEq, Repr

/-- `selectPackage`: filter the candidate map down to buildable packages;
none means `NoGoError`; exactly one is selected; among several, the one
whose name is the directory's default name is selected if present,
otherwise `MultiplePackageError`. -/
def selectPackage (defaultName : FName) (buildable : GoPackage → Bool)
    (packageMap : List GoPackage) : Except SelectErr GoPackage :=
  let bps := packageMap.filter buildable
  match bps with
  | [] => .error .noGoError
  | [pkg] => .ok pkg
  | _ =>
    match bps.find? (fun p => p.name = defaultName) with
    | some pkg => .ok pkg
    | none => .error .multiplePackageError

/-- Go `path.Base`: `"."` for the empty path, otherwise strip trailing
slashes and keep what follows the last remaining slash (`"/"` when the
path consisted only of slashes). -/
def goPathBase (p : FName) : FName :=
  if p.isEmpty then ['.']
  else
    let q := (p.reverse.dropWhile (fun c => c == '/')).reverse
    if q.isEmpty then ['/']
    else (q.reverse.takeWhile (fun c => c != '/')).reverse

/-- `defaultPackageName`: the directory's base name away from the
repository root; at the root, the base of the configured `go_prefix`,
with `"unnamed"` when that prefix is empty or all slashes. -/
def defaultPackageName (repoRoot goPrefix dir : FName) : FName :=
  if dir ≠ repoRoot then goPathBase dir
  else
    let name := goPathBase goPrefix
    if name = ['.'] ∨ name = ['/'] then "unnamed".toList else name

/-- Names of buildable candidates stay duplicate-free when the candidate
map's names are. -/
theorem nodup_filter_names (buildable : GoPackage → Bool)
    (packageMap : List GoPackage)
    (h : (packageMap.map GoPackage.name).Nodup) :
    ((packageMap.filter buildable).map GoPackage.name).Nodup :=
  List.Nodup.sublist (List.Sublist.map _ (List.filter_sublist _)) h

/-- C3: per-directory package selection.  With duplicate-free candidate
names and the default name taken from `defaultPackageName`: no buildable
candidate yields the (silent) no-package error; a single buildable
candidate is selected; among several, the candidate named after the
directory (or, at the root, after the repository prefix) is selected when
present; otherwise the multiple-packages conflict is reported and no
package is selected.  At most one package results by construction
(`selectPackage` returns at most one value). -/
theorem claim_C3_select_package (repoRoot goPrefix dir : FName)
    (buildable : GoPackage → Bool) (packageMap : List GoPackage)
    (hnodup : (packageMap.map GoPackage.name).Nodup) :
    (packageMap.filter buildable = [] →
      selectPackage (defaultPackageName repoRoot goPrefix dir) buildable packageMap =
        .error .noGoError) ∧
    (∀ p, packageMap.filter buildable = [p] →
      selectPackage (defaultPackageName repoRoot goPrefix dir) buildable packageMap =
        .ok p) ∧
    (2 ≤ (packageMap.filter buildable).length →
      ∀ p ∈ packageMap.filter buildable,
        p.name = defaultPackageName repoRoot goPrefix dir →
        selectPackage (defaultPackageName repoRoot goPrefix dir) buildable packageMap =
          .ok p) ∧
    (2 ≤ (packageMap.filter buildable).length →
      (∀ p ∈ packageMap.filter buildable,
        p.name ≠ defaultPackageName repoRoot goPrefix dir) →
      selectPackage (defaultPackageName repoRoot goPrefix dir) buildable packageMap =
        .error .multiplePackageError) := by
  set d := defaultPackageName repoRoot goPrefix dir with hd
  refine ⟨?_, ?_, ?_, ?_⟩
  · intro h
    unfold selectPackage
    rw [h]
  · intro p h
    unfold selectPackage
    rw [h]
  · intro hlen p hp hpname
    unfold selectPackage
    have hnames := nodup_filter_names buildable packageMap hnodup
    obtain (h0 | ⟨a, (h1 | ⟨b, rest, hrest⟩)⟩) :
        packageMap.filter buildable = [] ∨
          ∃ a, packageMap.filter buildable = [a] ∨
            ∃ b rest, packageMap.filter buildable = a :: b :: rest := by
      rcases hl : packageMap.filter buildable with _ | ⟨a, _ | ⟨b, rest⟩⟩
      · exact Or.inl rfl
      · exact Or.inr ⟨a, Or.inl rfl⟩
      · exact Or.inr ⟨a, Or.inr ⟨b, rest, rfl⟩⟩
    · rw [h0] at hlen; simp at hlen
    · rw [h1] at hlen; simp at hlen
    · rw [hrest]
      have hfind : ∃ q ∈ a :: b :: rest, (fun p => decide (p.name = d)) q = true :=
        ⟨p, by rw [← hrest]; exact hp, by simp [hpname]⟩
      rcases hq : (a :: b :: rest).find? (fun p => decide (p.name = d)) with _ | q
      · rw [List.find?_eq_none] at hq
        obtain ⟨x, hx1, hx2⟩ := hfind
        exact absurd hx2 (by simpa using hq x hx1)
      · have hqmem : q ∈ a :: b :: rest := List.mem_of_find?_eq_some hq
        have hqname : q.name = d := by
          have := List.find?_some hq
          simpa using this
        have : q = p := by
          have hinj := List.inj_on_of_nodup_map hnames
          rw [hrest] at hinj
          exact hinj hqmem (by rw [← hrest]; exact hp) (by rw [hqname, hpname])
        dsimp only
        rw [hq, this]
  · intro hlen hnone
    unfold selectPackage
    obtain ⟨a, b, rest, hrest⟩ :
        ∃ a b rest, packageMap.filter buildable = a :: b :: rest := by
      rcases hl : packageMap.filter buildable with _ | ⟨a, _ | ⟨b, rest⟩⟩
      · rw [hl] at hlen; simp at hlen
      · rw [hl] at hlen; simp at hlen
      · exact ⟨a, b, rest, rfl⟩
    rw [hrest]
    have hfindnone : (a :: b :: rest).find? (fun p => decide (p.name = d)) = none := by
      rw [List.find?_eq_none]
      intro x hx
      have := hnone x (by rw [hrest]; exact hx)
      simp [this]
    dsimp only
    rw [hfindnone]

/-- Witness for C3 at concrete inputs: two non-default buildable
candidates conflict; adding one named after the directory selects it. -/
theorem claim_C3_select_package_witness :
    selectPackage (defaultPackageName "/repo".toList "".toList "/repo/foo".toList)
      (fun _ => true) [⟨"a".toList, false⟩, ⟨"b".toList, false⟩] =
      .error .multiplePackageError ∧
    selectPackage (defaultPackageName "/repo".toList "".toList "/repo/foo".toList)
      (fun _ => true) [⟨"a".toList, false⟩, ⟨"foo".toList, false⟩] =
      .ok ⟨"foo".toList, false⟩ := by
  constructor
  · exact (claim_C3_select_package "/repo".toList "".toList "/repo/foo".toList
      (fun _ => true) [⟨"a".toList, false⟩, ⟨"b".toList, false⟩] (by decide)).2.2.2
      (by decide) (by decide)
  · exact (claim_C3_select_package "/repo".toList "".toList "/repo/foo".toList
      (fun _ => true) [⟨"a".toList, false⟩, ⟨"foo".toList, false⟩] (by decide)).2.2.1
      (by decide) ⟨"foo".toList, false⟩ (by decide) (by decide)

/-! ## Import resolution (`resolve` package, `resolveGo`)

`resolveGo` normalizes relative import paths with Go's `path.Clean` and
`path.Join` and rejects paths that remain relative after normalization.
The `path` standard-library functions are embedded below over `FName`
(their documented, segment-level behavior). -/

/-- One step of `path.Clean`'s element loop: empty and `"."` elements are
dropped; `".."` backtracks when possible, is dropped at the root of a
rooted path, and is kept for a relative path that cannot backtrack; any
other element is appended. -/
def cleanStep (rooted : Bool) (out : List FName) (seg : FName) : List FName :=
  if seg = [] ∨ seg = ['.'] then out
  else if seg = ['.', '.'] then
    match out.getLast? with
    | some l => if l = ['.', '.'] then (if rooted then out else out ++ [seg])
        else out.dropLast
    | none => if rooted then out else [seg]
  else out ++ [seg]

/-- Go `path.Clean`. -/
def pathClean (p : FName) : FName :=
  if p = [] then ['.']
  else
    let rooted := p.head? = some '/'
    let out := (p.splitOn '/').foldl (cleanStep rooted) []
    let joined := List.intercalate ['/'] out
    if rooted then '/' :: joined
    else if joined = [] then ['.'] else joined

/-- Go `path.Join` for two elements: empty when both are empty, otherwise
the `'/'`-joined concatenation (skipping an empty first element) passed
through `path.Clean`. -/
def pathJoin2 (a b : FName) : FName :=
  if a = [] ∧ b = [] then []
  else if a = [] then pathClean b
  else pathClean (a ++ '/' :: b)

/-- `go/build.IsLocalImport`: the path is `"."`, `".."`, or begins with
`"./"` or `"../"`. -/
def isLocalImport (p : FName) : Bool :=
  decide (p = ['.']) || decide (p = ['.', '.']) ||
    ['.', '/'].isPrefixOf p || ['.', '.', '/'].isPrefixOf p

/-- `resolve.Label` (label.go, as exercised by the label tests). -/
structure Label where
  repo : FName := []
  pkg : FName := []
  name : FName := []
  relative : Bool := false
deriving DecidableEq, Repr

/-- Resolution errors: the standard-library sentinel
(`standardImportError`) and the "points outside of repository" error
returned by `resolveGo` for escaping relative imports. -/
inductive ResolveErr where
  | standardImport (imp : FName)
  | escapesRepo (imp pkgRel : FName)
deriving DecidableEq, Repr

/-- `(*Resolver).resolveGo`, with the injected `nonlocalResolver`
abstracted as the function `ext`: a relative import is joined with the
package path and cleaned; if still relative it is an error; otherwise
the repository prefix is joined on and resolution proceeds on the
rewritten import path.  Non-local imports go to `ext` unchanged. -/
def resolveGo (ext : FName → Except ResolveErr Label) (goPrefix : FName)
    (imp pkgRel : FName) : Except ResolveErr Label :=
  if isLocalImport imp then
    let cleanRel := pathClean (pathJoin2 pkgRel imp)
    if isLocalImport cleanRel then .error (.escapesRepo imp pkgRel)
    else ext (pathJoin2 goPrefix cleanRel)
  else ext imp

/-- C9: for a relative import, `resolveGo` first normalizes it against
the current package path; if the normalized path is still relative (it
escapes the repository root) a reported error value is returned rather
than a crash, and otherwise resolution proceeds on the repository prefix
joined with the normalized path. -/
theorem claim_C9_relative_import_resolution
    (ext : FName → Except ResolveErr Label) (goPrefix imp pkgRel : FName)
    (h : isLocalImport imp = true) :
    (isLocalImport (pathClean (pathJoin2 pkgRel imp)) = true →
      resolveGo ext goPrefix imp pkgRel = .error (.escapesRepo imp pkgRel)) ∧
    (isLocalImport (pathClean (pathJoin2 pkgRel imp)) = false →
      resolveGo ext goPrefix imp pkgRel =
        ext (pathJoin2 goPrefix (pathClean (pathJoin2 pkgRel imp)))) := by
  constructor
  · intro hesc
    unfold resolveGo
    rw [if_pos h, if_pos hesc]
  · intro hok
    unfold resolveGo
    rw [if_pos h, if_neg (by rw [hok]; exact Bool.false_ne_true)]

/-- A stub external resolver used by the C9 witness. -/
def extOk : FName → Except ResolveErr Label := fun i => .ok { name := i }

/-- Witness for C9: `./../..` from package `a` escapes the root and is an
error; `../b` from package `a/c` normalizes to `a/b` and resolves under
the repository prefix. -/
theorem claim_C9_relative_import_resolution_witness :
    resolveGo extOk "github.com/x/y".toList "./../..".toList "a".toList =
      .error (.escapesRepo "./../..".toList "a".toList) ∧
    resolveGo extOk "github.com/x/y".toList "../b".toList "a/c".toList =
      .ok { name := "github.com/x/y/a/b".toList } := by
  constructor
  · exact (claim_C9_relative_import_resolution extOk _ _ _ (by decide)).1 (by decide)
  · have := (claim_C9_relative_import_resolution extOk "github.com/x/y".toList
      "../b".toList "a/c".toList (by decide)).2 (by decide)
    rw [this]
    rfl

/-! ## `ResolveRule` (`resolve` package)

`ResolveRule` is documented to replace the `_taze_imports` attribute of a
generated rule with a resolved `deps` attribute.  Its body dispatches on
the rule kind — `switch rule.Kind() { default: return }` — and that
switch contains only a default clause that returns, so no rule kind is
ever given a resolve function and the expression is returned untouched. -/

/-- A build-file expression, as far as `ResolveRule` inspects one: a rule
is a call expression carrying its kind and named attributes. -/
inductive BzlExpr where
  | strE (s : FName)
  | listE (xs : List BzlExpr)
  | callE (kind : FName) (attrs : List (FName × BzlExpr))

/-- `config.TazeImportsKey`, the raw-imports placeholder attribute name. -/
def tazeImportsKey : FName := "_taze_imports".toList

/-- The rule-kind dispatch of `ResolveRule`: the `switch rule.Kind()`
has only a `default: return` clause, so no kind selects a resolve
function — the option is over `Empty`. -/
def resolveFuncForKind (kind : FName) : Option Empty :=
  none

/-- `(*Resolver).ResolveRule`: a non-call expression is returned as is;
for a call expression the kind dispatch never produces a resolve
function, and the default clause returns with the expression
unmodified. -/
def resolveRule (e : BzlExpr) (pkgRel buildRel : FName) : BzlExpr :=
  match e with
  | .callE kind attrs =>
    match resolveFuncForKind kind with
    | none => .callE kind attrs
    | some h => h.elim
  | other => other

/-- `bf.Rule.AttrDefn` lookup: the named attribute of a rule, if any. -/
def ruleAttr (e : BzlExpr) (key : FName) : Option BzlExpr :=
  match e with
  | .callE _ attrs => attrs.lookup key
  | _ => none

/-- C2 (evaluating the code at the failing input): `ResolveRule` returns
every expression unchanged, so a generated rule keeps its raw
`_taze_imports` placeholder attribute and never acquires a `deps`
attribute — the documented rewrite into resolved labels does not
happen for any rule kind. -/
theorem claim_C2_resolve_rule_is_noop :
    (∀ (e : BzlExpr) (pkgRel buildRel : FName), resolveRule e pkgRel buildRel = e) ∧
    ruleAttr (resolveRule
        (.callE "ts_library".toList [(tazeImportsKey, .listE [.strE "a/b".toList])])
        [] []) tazeImportsKey = some (.listE [.strE "a/b".toList]) ∧
    ruleAttr (resolveRule
        (.callE "ts_library".toList [(tazeImportsKey, .listE [.strE "a/b".toList])])
        [] []) "deps".toList = none := by
  refine ⟨?_, by rfl, by rfl⟩
  intro e pkgRel buildRel
  cases e <;> rfl

/-! ## The merger (`merger.MergeWithExisting`)

The merger's source file is not among the available sources — only its
caller `mergeAndEmit` (main) is — so the merge algorithm below is
modelled from the specification's §4.6 policy: ignore-directive
passthrough; pinned rules/attributes never altered or removed; list
attributes merged as a set union preserving existing entries; scalar
attributes overwritten by the generated value unless pinned; unpinned
empty-candidate rules deleted; new rules appended; list-attribute
ordering normalized lexicographically after merge. -/

/-- Modelled from the spec: an attribute value is either a scalar (flag)
or a list of strings (sources, dependencies). -/
inductive MVal where
  | scalar (s : FName)
  | strList (xs : List FName)
deriving DecidableEq, Repr

/-- Modelled from the spec: a named rule attribute, with the trailing
pin-marker flag recorded from the existing file. -/
structure MAttr where
  key : FName
  pinned : Bool
  val : MVal
deriving DecidableEq, Repr

/-- Modelled from the spec: a rule of the declarative build file — name,
kind, pin-marker flag, and attributes. -/
structure MRule where
  name : FName
  kind : FName
  pinned : Bool
  attrs : List MAttr
deriving DecidableEq, Repr

/-- Modelled from the spec: a parsed build file — whether it carries the
ignore directive, and its rules. -/
structure MFile where
  hasIgnoreDirective : Bool
  rules : List MRule
deriving DecidableEq, Repr

/-- Modelled from the spec: the lexicographic, duplicate-free
normalization applied to dependency-list attributes after merge. -/
def normalizeList (xs : List FName) : List FName :=
  xs.dedup.insertionSort (· ≤ ·)

/-- Normalization preserves the set of entries. -/
theorem mem_normalizeList {xs : List FName} {x : FName} :
    x ∈ normalizeList xs ↔ x ∈ xs := by
  unfold normalizeList
  rw [(List.perm_insertionSort _ _).mem_iff, List.mem_dedup]

/-- Normalized lists are duplicate-free. -/
theorem nodup_normalizeList (xs : List FName) : (normalizeList xs).Nodup :=
  ((List.perm_insertionSort _ _).nodup_iff).mpr (List.nodup_dedup xs)

/-- Normalized lists are sorted. -/
theorem sorted_normalizeList (xs : List FName) :
    (normalizeList xs).Sorted (· ≤ ·) :=
  List.sorted_insertionSort _ _

/-- Two lists with the same entries normalize identically. -/
theorem normalizeList_congr {a b : List FName} (h : ∀ x, x ∈ a ↔ x ∈ b) :
    normalizeList a = normalizeList b := by
  refine List.eq_of_perm_of_sorted ?_ (sorted_normalizeList a) (sorted_normalizeList b)
  refine (List.perm_ext_iff_of_nodup (nodup_normalizeList a) (nodup_normalizeList b)).mpr ?_
  intro x
  rw [mem_normalizeList, mem_normalizeList]
  exact h x

/-- Normalizing an already-normalized prefix changes nothing. -/
theorem normalizeList_normalizeList_append (a b : List FName) :
    normalizeList (normalizeList a ++ b) = normalizeList (a ++ b) := by
  refine normalizeList_congr ?_
  intro x
  simp [mem_normalizeList]

/-- Modelled from the spec: normalization of a single attribute value —
list values are sorted and deduplicated, scalars are untouched. -/
def normalizeVal (v : MVal) : MVal :=
  match v with
  | .scalar s => .scalar s
  | .strList xs => .strList (normalizeList xs)

/-- Modelled from the spec: merging one generated attribute value into an
existing one — list attributes are merged as a set union preserving the
existing entries and inserting newly discovered ones (then normalized);
scalar generated values overwrite. -/
def mergeVal (genV oldV : MVal) : MVal :=
  match genV, oldV with
  | .strList gen, .strList old => .strList (normalizeList (old ++ gen))
  | .strList gen, .scalar _ => .strList (normalizeList gen)
  | .scalar s, _ => .scalar s

/-- Merging the same generated value twice changes nothing more. -/
theorem mergeVal_idem (g v : MVal) : mergeVal g (mergeVal g v) = mergeVal g v := by
  cases g with
  | scalar s => cases v <;> rfl
  | strList gen =>
    cases v with
    | scalar s =>
      show MVal.strList (normalizeList (normalizeList gen ++ gen)) = _
      rw [normalizeList_normalizeList_append]
      show MVal.strList (normalizeList (gen ++ gen)) = MVal.strList (normalizeList gen)
      exact congrArg _ (normalizeList_congr (by intro x; simp))
    | strList old =>
      show MVal.strList (normalizeList (normalizeList (old ++ gen) ++ gen)) = _
      rw [normalizeList_normalizeList_append]
      exact congrArg _ (normalizeList_congr (by intro x; simp [or_assoc, or_comm, or_left_comm]))

/-- Merging a generated value into its own normalization changes
nothing. -/
theorem mergeVal_normalizeVal (v : MVal) : mergeVal v (normalizeVal v) = normalizeVal v := by
  cases v with
  | scalar s => rfl
  | strList xs =>
    show MVal.strList (normalizeList (normalizeList xs ++ xs)) = _
    rw [normalizeList_normalizeList_append]
    exact congrArg _ (normalizeList_congr (by intro x; simp))

/-- Lookup of an attribute by key. -/
def lookupAttr (attrs : List MAttr) (k : FName) : Option MAttr :=
  attrs.find? (fun a => a.key = k)

/-- Modelled from the spec: merging one existing attribute against the
generated attribute set — pinned attributes are kept exactly; otherwise
a matching generated attribute's value is merged in, and attributes only
present in the existing file are preserved. -/
def mergeOldAttr (genAttrs : List MAttr) (a : MAttr) : MAttr :=
  if a.pinned then a
  else
    match lookupAttr genAttrs a.key with
    | some g => { a with val := mergeVal g.val a.val }
    | none => a

/-- Modelled from the spec: normalization of a whole attribute list
(applied to freshly appended generated rules). -/
def normalizeAttrs (attrs : List MAttr) : List MAttr :=
  attrs.map (fun a => { a with val := normalizeVal a.val })

/-- Modelled from the spec: the merged attribute list of a rule present
in both the generated set and the existing file — existing attributes
merged in place (file order preserved), then generated attributes with
no existing counterpart appended, normalized. -/
def mergeAttrs (genAttrs oldAttrs : List MAttr) : List MAttr :=
  oldAttrs.map (mergeOldAttr genAttrs) ++
    normalizeAttrs (genAttrs.filter (fun g => (lookupAttr oldAttrs g.key).isNone))

/-- Attribute keys and pin flags survive `mergeOldAttr`. -/
theorem mergeOldAttr_key_pinned (genAttrs : List MAttr) (a : MAttr) :
    (mergeOldAttr genAttrs a).key = a.key ∧
      (mergeOldAttr genAttrs a).pinned = a.pinned := by
  unfold mergeOldAttr
  split
  · exact ⟨rfl, rfl⟩
  · split <;> exact ⟨rfl, rfl⟩

/-- The keys of a merged attribute list are the existing keys followed by
the generated-only keys. -/
theorem mem_key_mergeAttrs {genAttrs oldAttrs : List MAttr} {k : FName} :
    (∃ a ∈ mergeAttrs genAttrs oldAttrs, a.key = k) ↔
      (∃ a ∈ oldAttrs, a.key = k) ∨ (∃ g ∈ genAttrs, g.key = k) := by
  constructor
  · rintro ⟨a, ha, rfl⟩
    rcases List.mem_append.mp ha with h | h
    · obtain ⟨b, hb, rfl⟩ := List.mem_map.mp h
      exact Or.inl ⟨b, hb, ((mergeOldAttr_key_pinned genAttrs b).1).symm⟩
    · obtain ⟨g, hg, rfl⟩ := List.mem_map.mp h
      exact Or.inr ⟨g, (List.mem_filter.mp hg).1, rfl⟩
  · rintro (⟨a, ha, rfl⟩ | ⟨g, hg, rfl⟩)
    · refine ⟨mergeOldAttr genAttrs a, List.mem_append.mpr (Or.inl (List.mem_map_of_mem _ ha)), (mergeOldAttr_key_pinned genAttrs a).1⟩
    · rcases hfind : lookupAttr oldAttrs g.key with _ | b
      · refine ⟨{ g with val := normalizeVal g.val }, List.mem_append.mpr (Or.inr ?_), rfl⟩
        exact List.mem_map_of_mem _ (List.mem_filter.mpr ⟨hg, by rw [hfind]; rfl⟩)
      · have hb : b ∈ oldAttrs := List.mem_of_find?_eq_some hfind
        have hbk : b.key = g.key := by
          have := List.find?_some hfind
          simpa using this
        refine ⟨mergeOldAttr genAttrs b, List.mem_append.mpr (Or.inl (List.mem_map_of_mem _ hb)), ?_⟩
        rw [(mergeOldAttr_key_pinned genAttrs b).1, hbk]

/-- Merging the same generated attribute set into an already-merged
existing attribute changes nothing further. -/
theorem mergeOldAttr_idem (genAttrs : List MAttr) (a : MAttr) :
    mergeOldAttr genAttrs (mergeOldAttr genAttrs a) = mergeOldAttr genAttrs a := by
  by_cases hpin : a.pinned
  · unfold mergeOldAttr
    rw [if_pos hpin, if_pos hpin]
  · rcases hfind : lookupAttr genAttrs a.key with _ | g
    · unfold mergeOldAttr
      rw [if_neg hpin, hfind, if_neg hpin, hfind]
    · have step : mergeOldAttr genAttrs a = { a with val := mergeVal g.val a.val } := by
        unfold mergeOldAttr
        rw [if_neg hpin, hfind]
      rw [step]
      unfold mergeOldAttr
      rw [if_neg hpin]
      show (match lookupAttr genAttrs a.key with
        | some g' => { a with val := mergeVal g'.val (mergeVal g.val a.val) }
        | none => { a with val := mergeVal g.val a.val }) = _
      rw [hfind]
      dsimp only
      rw [mergeVal_idem]

/-- With duplicate-free generated keys, re-merging a generated attribute
into its own normalization changes nothing. -/
theorem mergeOldAttr_normalize (genAttrs : List MAttr) (g : MAttr)
    (hkeys : (genAttrs.map MAttr.key).Nodup) (hg : g ∈ genAttrs) :
    mergeOldAttr genAttrs { g with val := normalizeVal g.val } =
      { g with val := normalizeVal g.val } := by
  by_cases hpin : g.pinned
  · unfold mergeOldAttr
    rw [if_pos hpin]
  · have hfind : lookupAttr genAttrs g.key = some g := by
      unfold lookupAttr
      rcases hf : genAttrs.find? (fun a => a.key = g.key) with _ | b
      · rw [List.find?_eq_none] at hf
        exact absurd (by simp : decide (g.key = g.key) = true) (by simpa using hf g hg)
      · have hbmem : b ∈ genAttrs := List.mem_of_find?_eq_some hf
        have hbk : b.key = g.key := by simpa using List.find?_some hf
        have hbg : b = g := List.inj_on_of_nodup_map hkeys hbmem hg hbk
        rw [hbg] at hf
        exact hf
    unfold mergeOldAttr
    rw [if_neg hpin]
    show (match lookupAttr genAttrs g.key with
      | some g' => { g with pinned := g.pinned, val := mergeVal g'.val (normalizeVal g.val) }
      | none => { g with val := normalizeVal g.val }) = _
    rw [hfind]
    dsimp only
    rw [mergeVal_normalizeVal]

/-- Re-merging over an already-merged attribute list leaves every
attribute unchanged. -/
theorem map_mergeOldAttr_mergeAttrs (genAttrs oldAttrs : List MAttr)
    (hkeys : (genAttrs.map MAttr.key).Nodup) :
    (mergeAttrs genAttrs oldAttrs).map (mergeOldAttr genAttrs) =
      mergeAttrs genAttrs oldAttrs := by
  unfold mergeAttrs normalizeAttrs
  rw [List.map_append, List.map_map, List.map_map]
  congr 1
  · exact List.map_congr_left (fun a _ => mergeOldAttr_idem genAttrs a)
  · refine List.map_congr_left ?_
    intro g hgmem
    have hgin : g ∈ genAttrs := (List.mem_filter.mp hgmem).1
    exact mergeOldAttr_normalize genAttrs g hkeys hgin

/-- With duplicate-free generated keys, merging the same generated
attribute set into an already-merged attribute list changes nothing. -/
theorem mergeAttrs_idem (genAttrs oldAttrs : List MAttr)
    (hkeys : (genAttrs.map MAttr.key).Nodup) :
    mergeAttrs genAttrs (mergeAttrs genAttrs oldAttrs) =
      mergeAttrs genAttrs oldAttrs := by
  have hfilter : genAttrs.filter
      (fun g => (lookupAttr (mergeAttrs genAttrs oldAttrs) g.key).isNone) = [] := by
    rw [List.filter_eq_nil_iff]
    intro g hg
    obtain ⟨a, ha, hak⟩ := mem_key_mergeAttrs.mpr (Or.inr ⟨g, hg, rfl⟩)
    intro hnone
    rw [Option.isNone_iff_eq_none] at hnone
    unfold lookupAttr at hnone
    rw [List.find?_eq_none] at hnone
    exact absurd (by simp [hak] : decide (a.key = g.key) = true) (by simpa using hnone a ha)
  have expand : mergeAttrs genAttrs (mergeAttrs genAttrs oldAttrs) =
      (mergeAttrs genAttrs oldAttrs).map (mergeOldAttr genAttrs) ++
        normalizeAttrs (genAttrs.filter (fun g =>
          (lookupAttr (mergeAttrs genAttrs oldAttrs) g.key).isNone)) := rfl
  rw [expand, hfilter]
  show (mergeAttrs genAttrs oldAttrs).map (mergeOldAttr genAttrs) ++ [] = _
  rw [List.append_nil]
  exact map_mergeOldAttr_mergeAttrs genAttrs oldAttrs hkeys

/-- Modelled from the spec: an unpinned generated attribute set reconciled
with its own normalization changes nothing (the filter of generated-only
keys is empty because normalization preserves keys). -/
theorem mergeAttrs_normalizeAttrs (genAttrs : List MAttr)
    (hkeys : (genAttrs.map MAttr.key).Nodup) :
    mergeAttrs genAttrs (normalizeAttrs genAttrs) = normalizeAttrs genAttrs := by
  have hfilter : genAttrs.filter
      (fun g => (lookupAttr (normalizeAttrs genAttrs) g.key).isNone) = [] := by
    rw [List.filter_eq_nil_iff]
    intro g hg
    intro hnone
    rw [Option.isNone_iff_eq_none] at hnone
    unfold lookupAttr at hnone
    rw [List.find?_eq_none] at hnone
    have hmem : { g with val := normalizeVal g.val } ∈ normalizeAttrs genAttrs :=
      List.mem_map_of_mem _ hg
    exact absurd (by simp : decide (({ g with val := normalizeVal g.val } : MAttr).key = g.key) = true)
      (by simpa using hnone _ hmem)
  have expand : mergeAttrs genAttrs (normalizeAttrs genAttrs) =
      (normalizeAttrs genAttrs).map (mergeOldAttr genAttrs) ++
        normalizeAttrs (genAttrs.filter (fun g =>
          (lookupAttr (normalizeAttrs genAttrs) g.key).isNone)) := rfl
  rw [expand, hfilter]
  show (normalizeAttrs genAttrs).map (mergeOldAttr genAttrs) ++ [] = _
  rw [List.append_nil]
  unfold normalizeAttrs
  rw [List.map_map]
  exact List.map_congr_left (fun g hg => mergeOldAttr_normalize genAttrs g hkeys hg)

/-- Modelled from the spec: a rule carrying the trailing pin marker, or
containing an attribute carrying it, blocks whole-rule deletion. -/
def rulePinnedAnywhere (r : MRule) : Bool :=
  r.pinned || r.attrs.any (fun a => a.pinned)

/-- Lookup of a rule by target name. -/
def findRule (rules : List MRule) (name : FName) : Option MRule :=
  rules.find? (fun r => r.name = name)

/-- Modelled from the spec: merging a generated rule into the same-named
existing rule — the existing rule's identity (name, kind, pin flag) is
kept and the attribute lists are reconciled. -/
def mergeRule (g old : MRule) : MRule :=
  { old with attrs := mergeAttrs g.attrs old.attrs }

/-- Modelled from the spec: a freshly appended generated rule has its
list attributes normalized (lexicographic order, duplicates removed). -/
def normalizeRule (g : MRule) : MRule :=
  { g with attrs := normalizeAttrs g.attrs }

/-- Modelled from the spec: the treatment of one surviving existing rule —
pinned rules are never altered; otherwise a same-named generated rule is
merged in, and rules without a generated counterpart are left alone. -/
def mergeMatchedRule (gen : List MRule) (r : MRule) : MRule :=
  if r.pinned then r
  else
    match findRule gen r.name with
    | some g => mergeRule g r
    | none => r

/-- Modelled from the spec: `merger.MergeWithExisting` (source not
available; §4.6 policy): ignore-directive files pass through unmerged
(`none`); unpinned rules named as empty candidates are deleted; surviving
existing rules are merged against same-named generated rules; generated
rules with no existing counterpart are appended with normalized list
attributes. -/
def mergeWithExisting (gen : List MRule) (old : MFile) (empty : List FName) :
    Option MFile :=
  if old.hasIgnoreDirective then none
  else
    let kept := old.rules.filter
      (fun r => !(decide (r.name ∈ empty) && !rulePinnedAnywhere r))
    let merged := kept.map (mergeMatchedRule gen)
    let appended := (gen.filter
      (fun g => (findRule old.rules g.name).isNone)).map normalizeRule
    some ⟨false, merged ++ appended⟩

/-- The file on disk after a merge pass: the merged file, or the existing
file untouched when the merger declined (ignore directive). -/
def mergeOutput (gen : List MRule) (old : MFile) (empty : List FName) : MFile :=
  (mergeWithExisting gen old empty).getD old

/-- Rule identity is preserved by `mergeMatchedRule`. -/
theorem mergeMatchedRule_id_fields (gen : List MRule) (r : MRule) :
    (mergeMatchedRule gen r).name = r.name ∧
    (mergeMatchedRule gen r).kind = r.kind ∧
    (mergeMatchedRule gen r).pinned = r.pinned := by
  unfold mergeMatchedRule
  split
  · exact ⟨rfl, rfl, rfl⟩
  · split <;> exact ⟨rfl, rfl, rfl⟩

/-- With duplicate-free generated names, looking a generated rule's own
name up in the generated set finds that rule. -/
theorem findRule_self {gen : List MRule} {g : MRule}
    (hnames : (gen.map MRule.name).Nodup) (hg : g ∈ gen) :
    findRule gen g.name = some g := by
  unfold findRule
  rcases hf : gen.find? (fun r => r.name = g.name) with _ | b
  · rw [List.find?_eq_none] at hf
    exact absurd (by simp : decide (g.name = g.name) = true) (by simpa using hf g hg)
  · have hbmem : b ∈ gen := List.mem_of_find?_eq_some hf
    have hbk : b.name = g.name := by simpa using List.find?_some hf
    have hbg : b = g := List.inj_on_of_nodup_map hnames hbmem hg hbk
    rw [hbg] at hf
    exact hf

/-- Applying `mergeMatchedRule` twice with the same generated set is the
same as applying it once. -/
theorem mergeMatchedRule_idem (gen : List MRule) (r : MRule)
    (hattrs : ∀ g ∈ gen, (g.attrs.map MAttr.key).Nodup) :
    mergeMatchedRule gen (mergeMatchedRule gen r) = mergeMatchedRule gen r := by
  by_cases hpin : r.pinned
  · have h1 : mergeMatchedRule gen r = r := by
      unfold mergeMatchedRule
      rw [if_pos hpin]
    rw [h1, h1]
  · rcases hfind : findRule gen r.name with _ | g
    · have h1 : mergeMatchedRule gen r = r := by
        unfold mergeMatchedRule
        rw [if_neg hpin, hfind]
      rw [h1, h1]
    · have hgmem : g ∈ gen := List.mem_of_find?_eq_some hfind
      have h1 : mergeMatchedRule gen r = mergeRule g r := by
        unfold mergeMatchedRule
        rw [if_neg hpin, hfind]
      rw [h1]
      unfold mergeMatchedRule
      rw [if_neg (show ¬((mergeRule g r).pinned = true) from hpin)]
      have h2 : findRule gen (mergeRule g r).name = some g := hfind
      rw [h2]
      show { r with attrs := mergeAttrs g.attrs (mergeAttrs g.attrs r.attrs) } =
        { r with attrs := mergeAttrs g.attrs r.attrs }
      rw [mergeAttrs_idem _ _ (hattrs g hgmem)]

/-- Re-merging a generated rule into its own normalized appended form
changes nothing. -/
theorem mergeMatchedRule_normalizeRule (gen : List MRule) (g : MRule)
    (hnames : (gen.map MRule.name).Nodup)
    (hattrs : ∀ g' ∈ gen, (g'.attrs.map MAttr.key).Nodup) (hg : g ∈ gen) :
    mergeMatchedRule gen (normalizeRule g) = normalizeRule g := by
  by_cases hpin : g.pinned
  · unfold mergeMatchedRule
    rw [if_pos (show (normalizeRule g).pinned = true from hpin)]
  · unfold mergeMatchedRule
    rw [if_neg (show ¬((normalizeRule g).pinned = true) from hpin)]
    have h2 : findRule gen (normalizeRule g).name = some g := findRule_self hnames hg
    rw [h2]
    show { g with attrs := mergeAttrs g.attrs (normalizeAttrs g.attrs) } = _
    rw [mergeAttrs_normalizeAttrs _ (hattrs g hg)]
    rfl

/-- Reading the deletion filter's predicate at the `Prop` level. -/
theorem delPred_true_iff (empty : List FName) (r : MRule) :
    ((!(decide (r.name ∈ empty) && !rulePinnedAnywhere r)) = true) ↔
      (r.name ∈ empty → rulePinnedAnywhere r = true) := by
  cases h : rulePinnedAnywhere r <;> by_cases hm : r.name ∈ empty <;> simp [h, hm]

/-- A surviving pin (on the rule or any of its attributes) still blocks
deletion after the rule has been merged. -/
theorem rulePinnedAnywhere_mergeMatchedRule (gen : List MRule) (r : MRule)
    (h : rulePinnedAnywhere r = true) :
    rulePinnedAnywhere (mergeMatchedRule gen r) = true := by
  unfold rulePinnedAnywhere at h ⊢
  rcases Bool.or_eq_true_iff.mp h with hpin | hany
  · rw [(mergeMatchedRule_id_fields gen r).2.2, hpin]
    rfl
  · by_cases hpin : r.pinned
    · unfold mergeMatchedRule
      rw [if_pos hpin]
      exact h
    · rcases hfind : findRule gen r.name with _ | g
      · unfold mergeMatchedRule
        rw [if_neg hpin, hfind]
        exact h
      · have hrw : mergeMatchedRule gen r = mergeRule g r := by
          unfold mergeMatchedRule
          rw [if_neg hpin, hfind]
        rw [hrw]
        obtain ⟨a, ha, hap⟩ := List.any_eq_true.mp hany
        refine Bool.or_eq_true_iff.mpr (Or.inr (List.any_eq_true.mpr ?_))
        refine ⟨mergeOldAttr g.attrs a, ?_, ?_⟩
        · exact List.mem_append.mpr (Or.inl (List.mem_map_of_mem _ ha))
        · rw [(mergeOldAttr_key_pinned g.attrs a).2]
          exact hap

/-- C4: merge is idempotent.  With the generator's invariants (rule names
and per-rule attribute keys duplicate-free, and no generated rule listed
as an empty candidate), merging the same generated rule set into the file
produced by the previous merge reproduces that file exactly — re-running
generation on an unchanged tree is a no-op. -/
theorem claim_C4_merge_idempotent (gen : List MRule) (old : MFile) (empty : List FName)
    (hnames : (gen.map MRule.name).Nodup)
    (hattrs : ∀ g ∈ gen, (g.attrs.map MAttr.key).Nodup)
    (hempty : ∀ g ∈ gen, g.name ∉ empty) :
    mergeOutput gen (mergeOutput gen old empty) empty = mergeOutput gen old empty := by
  by_cases hig : old.hasIgnoreDirective = true
  · have h1 : mergeOutput gen old empty = old := by
      unfold mergeOutput mergeWithExisting
      rw [if_pos hig]
      rfl
    rw [h1]
    exact h1
  · have hig' : old.hasIgnoreDirective = false := Bool.eq_false_iff.mpr hig
    have hM : mergeOutput gen old empty = ⟨false,
        (old.rules.filter (fun r => !(decide (r.name ∈ empty) && !rulePinnedAnywhere r))).map
          (mergeMatchedRule gen) ++
        (gen.filter (fun g => (findRule old.rules g.name).isNone)).map normalizeRule⟩ := by
      unfold mergeOutput mergeWithExisting
      rw [if_neg hig]
      rfl
    set mergedPart := (old.rules.filter
      (fun r => !(decide (r.name ∈ empty) && !rulePinnedAnywhere r))).map
        (mergeMatchedRule gen) with hmerged
    set appendedPart := (gen.filter
      (fun g => (findRule old.rules g.name).isNone)).map normalizeRule with happended
    rw [hM]
    have hMrules : (MFile.mk false (mergedPart ++ appendedPart)).rules =
        mergedPart ++ appendedPart := rfl
    -- Every rule of the merged file survives the second deletion pass.
    have hsurvive : ∀ r' ∈ mergedPart ++ appendedPart,
        (!(decide (r'.name ∈ empty) && !rulePinnedAnywhere r')) = true := by
      intro r' hr'
      rcases List.mem_append.mp hr' with h | h
      · obtain ⟨r, hrmem, rfl⟩ := List.mem_map.mp h
        have hrpred := List.of_mem_filter hrmem
        rw [delPred_true_iff] at hrpred ⊢
        intro hmem
        rw [(mergeMatchedRule_id_fields gen r).1] at hmem
        exact rulePinnedAnywhere_mergeMatchedRule gen r (hrpred hmem)
      · obtain ⟨g, hgmem, rfl⟩ := List.mem_map.mp h
        have hgin : g ∈ gen := (List.mem_filter.mp hgmem).1
        rw [delPred_true_iff]
        intro hmem
        exact absurd hmem (hempty g hgin)
    -- No generated rule lacks a counterpart in the merged file.
    have happ2 : gen.filter
        (fun g => (findRule (mergedPart ++ appendedPart) g.name).isNone) = [] := by
      rw [List.filter_eq_nil_iff]
      intro g hg
      have hexists : ∃ x ∈ mergedPart ++ appendedPart, x.name = g.name := by
        rcases hold : findRule old.rules g.name with _ | r
        · refine ⟨normalizeRule g, List.mem_append.mpr (Or.inr ?_), rfl⟩
          exact List.mem_map_of_mem _
            (List.mem_filter.mpr ⟨hg, by rw [hold]; rfl⟩)
        · have hrmem : r ∈ old.rules := List.mem_of_find?_eq_some hold
          have hrname : r.name = g.name := by simpa using List.find?_some hold
          have hkept : r ∈ old.rules.filter
              (fun r => !(decide (r.name ∈ empty) && !rulePinnedAnywhere r)) := by
            refine List.mem_filter.mpr ⟨hrmem, ?_⟩
            rw [delPred_true_iff]
            intro hmem
            rw [hrname] at hmem
            exact absurd hmem (hempty g hg)
          refine ⟨mergeMatchedRule gen r, List.mem_append.mpr (Or.inl
            (List.mem_map_of_mem _ hkept)), ?_⟩
          rw [(mergeMatchedRule_id_fields gen r).1]
          exact hrname
      intro hnone
      rw [Option.isNone_iff_eq_none] at hnone
      unfold findRule at hnone
      rw [List.find?_eq_none] at hnone
      obtain ⟨x, hx, hxname⟩ := hexists
      exact absurd (by simp [hxname] : decide (x.name = g.name) = true)
        (by simpa using hnone x hx)
    -- Every rule of the merged file is unchanged by the second merge pass.
    have hmap2 : (mergedPart ++ appendedPart).map (mergeMatchedRule gen) =
        mergedPart ++ appendedPart := by
      rw [List.map_append]
      congr 1
      · rw [hmerged, List.map_map]
        exact List.map_congr_left (fun r _ => mergeMatchedRule_idem gen r hattrs)
      · rw [happended, List.map_map]
        refine List.map_congr_left ?_
        intro g hgmem
        exact mergeMatchedRule_normalizeRule gen g hnames hattrs
          (List.mem_filter.mp hgmem).1
    unfold mergeOutput mergeWithExisting
    rw [if_neg (show ¬((MFile.mk false (mergedPart ++ appendedPart)).hasIgnoreDirective = true)
      from Bool.false_ne_true)]
    show MFile.mk false
        ((((mergedPart ++ appendedPart).filter _).map (mergeMatchedRule gen)) ++
          ((gen.filter _).map normalizeRule)) = _
    rw [List.filter_eq_self.mpr hsurvive, happ2, hmap2]
    simp

/-- Witness for C4: a concrete generated set (one library rule with
unsorted sources), an existing file with a manual entry and a stale
rule listed as an empty candidate; the second merge reproduces the first
merge's output exactly. -/
theorem claim_C4_merge_idempotent_witness :
    mergeOutput
      [⟨"lib".toList, "ts_library".toList, false,
        [⟨"srcs".toList, false, .strList ["b.ts".toList, "a.ts".toList]⟩]⟩]
      (mergeOutput
        [⟨"lib".toList, "ts_library".toList, false,
          [⟨"srcs".toList, false, .strList ["b.ts".toList, "a.ts".toList]⟩]⟩]
        ⟨false, [⟨"lib".toList, "ts_library".toList, false,
            [⟨"srcs".toList, false, .strList ["manual.ts".toList]⟩]⟩,
          ⟨"old_bin".toList, "ts_binary".toList, false, []⟩]⟩
        ["old_bin".toList])
      ["old_bin".toList] =
    mergeOutput
      [⟨"lib".toList, "ts_library".toList, false,
        [⟨"srcs".toList, false, .strList ["b.ts".toList, "a.ts".toList]⟩]⟩]
      ⟨false, [⟨"lib".toList, "ts_library".toList, false,
          [⟨"srcs".toList, false, .strList ["manual.ts".toList]⟩]⟩,
        ⟨"old_bin".toList, "ts_binary".toList, false, []⟩]⟩
      ["old_bin".toList] :=
  claim_C4_merge_idempotent _ _ _ (by decide) (by decide) (by decide)

/-- A pinned attribute of an existing rule survives the rule's merge
verbatim. -/
theorem mem_attrs_mergeMatchedRule_of_pinned (gen : List MRule) (r : MRule)
    (a : MAttr) (ha : a ∈ r.attrs) (hap : a.pinned = true) :
    a ∈ (mergeMatchedRule gen r).attrs := by
  by_cases hpin : r.pinned
  · unfold mergeMatchedRule
    rw [if_pos hpin]
    exact ha
  · rcases hfind : findRule gen r.name with _ | g
    · unfold mergeMatchedRule
      rw [if_neg hpin, hfind]
      exact ha
    · have hrw : mergeMatchedRule gen r = mergeRule g r := by
        unfold mergeMatchedRule
        rw [if_neg hpin, hfind]
      rw [hrw]
      show a ∈ mergeAttrs g.attrs r.attrs
      have : mergeOldAttr g.attrs a = a := by
        unfold mergeOldAttr
        rw [if_pos hap]
      refine List.mem_append.mpr (Or.inl ?_)
      rw [← this]
      exact List.mem_map_of_mem _ ha

/-- C5: pinned existing rules pass through merge byte-for-byte and are
never deleted, even when the same-named generated rule carries different
attribute values or the rule is an empty-deletion candidate; a pinned
attribute keeps its literal value inside the merged rule of the same name
and kind. -/
theorem claim_C5_pin_markers_preserved (gen : List MRule) (old : MFile)
    (empty : List FName) :
    (∀ r ∈ old.rules, r.pinned = true →
      r ∈ (mergeOutput gen old empty).rules) ∧
    (∀ r ∈ old.rules, ∀ a ∈ r.attrs, a.pinned = true →
      ∃ r' ∈ (mergeOutput gen old empty).rules,
        r'.name = r.name ∧ r'.kind = r.kind ∧ a ∈ r'.attrs) := by
  by_cases hig : old.hasIgnoreDirective = true
  · have h1 : mergeOutput gen old empty = old := by
      unfold mergeOutput mergeWithExisting
      rw [if_pos hig]
      rfl
    rw [h1]
    exact ⟨fun r hr _ => hr, fun r hr a ha _ => ⟨r, hr, rfl, rfl, ha⟩⟩
  · have hM : mergeOutput gen old empty = ⟨false,
        (old.rules.filter (fun r => !(decide (r.name ∈ empty) && !rulePinnedAnywhere r))).map
          (mergeMatchedRule gen) ++
        (gen.filter (fun g => (findRule old.rules g.name).isNone)).map normalizeRule⟩ := by
      unfold mergeOutput mergeWithExisting
      rw [if_neg hig]
      rfl
    rw [hM]
    constructor
    · intro r hr hpin
      have hkept : r ∈ old.rules.filter
          (fun r => !(decide (r.name ∈ empty) && !rulePinnedAnywhere r)) := by
        refine List.mem_filter.mpr ⟨hr, ?_⟩
        rw [delPred_true_iff]
        intro _
        unfold rulePinnedAnywhere
        rw [hpin]
        rfl
      have hid : mergeMatchedRule gen r = r := by
        unfold mergeMatchedRule
        rw [if_pos hpin]
      refine List.mem_append.mpr (Or.inl ?_)
      rw [← hid]
      exact List.mem_map_of_mem _ hkept
    · intro r hr a ha hap
      have hkept : r ∈ old.rules.filter
          (fun r => !(decide (r.name ∈ empty) && !rulePinnedAnywhere r)) := by
        refine List.mem_filter.mpr ⟨hr, ?_⟩
        rw [delPred_true_iff]
        intro _
        unfold rulePinnedAnywhere
        refine Bool.or_eq_true_iff.mpr (Or.inr (List.any_eq_true.mpr ⟨a, ha, hap⟩))
      refine ⟨mergeMatchedRule gen r, List.mem_append.mpr (Or.inl
        (List.mem_map_of_mem _ hkept)), (mergeMatchedRule_id_fields gen r).1,
        (mergeMatchedRule_id_fields gen r).2.1,
        mem_attrs_mergeMatchedRule_of_pinned gen r a ha hap⟩

/-- Generated rules for the C5 witness: a contradicting `srcs` value for
the rule whose existing attribute is pinned. -/
def c5gen : List MRule :=
  [⟨"lib".toList, "ts_library".toList, false,
    [⟨"srcs".toList, false, .strList ["new.ts".toList]⟩]⟩]

/-- Existing file for the C5 witness: a pinned rule (also listed as an
empty candidate) and an unpinned rule with a pinned `srcs` attribute. -/
def c5old : MFile :=
  ⟨false, [⟨"pinned_bin".toList, "ts_binary".toList, true,
      [⟨"srcs".toList, false, .strList ["keep.ts".toList]⟩]⟩,
    ⟨"lib".toList, "ts_library".toList, false,
      [⟨"srcs".toList, true, .strList ["pinned.ts".toList]⟩]⟩]⟩

/-- Witness for C5: a pinned rule listed as an empty candidate survives
unaltered, and a pinned `srcs` attribute keeps its literal value even
though generation supplies a contradicting one. -/
theorem claim_C5_pin_markers_preserved_witness :
    (⟨"pinned_bin".toList, "ts_binary".toList, true,
        [⟨"srcs".toList, false, .strList ["keep.ts".toList]⟩]⟩ : MRule) ∈
      (mergeOutput c5gen c5old ["pinned_bin".toList]).rules ∧
    ∃ r' ∈ (mergeOutput c5gen c5old ["pinned_bin".toList]).rules,
      r'.name = "lib".toList ∧ r'.kind = "ts_library".toList ∧
        (⟨"srcs".toList, true, .strList ["pinned.ts".toList]⟩ : MAttr) ∈ r'.attrs := by
  constructor
  · exact (claim_C5_pin_markers_preserved c5gen c5old ["pinned_bin".toList]).1
      ⟨"pinned_bin".toList, "ts_binary".toList, true,
        [⟨"srcs".toList, false, .strList ["keep.ts".toList]⟩]⟩ (by decide) rfl
  · exact (claim_C5_pin_markers_preserved c5gen c5old ["pinned_bin".toList]).2
      ⟨"lib".toList, "ts_library".toList, false,
        [⟨"srcs".toList, true, .strList ["pinned.ts".toList]⟩]⟩ (by decide)
      ⟨"srcs".toList, true, .strList ["pinned.ts".toList]⟩ (by decide) rfl

/-! ## The directory walker (`packages.Walk` / `visit`)

`visit` is a closure over `Walk`'s parameter `c`; the assignments
`c = config.ApplyDirectives(c, directives)` and
`c = config.InferProtoMode(c, oldFile, directives)` write to that shared
captured variable, so the configuration is threaded as sequential state
through the whole traversal (children, later siblings, and the parent's
own callback, which runs after the recursion, all observe it).  The model
makes that state explicit: `visit` takes the current configuration and
returns the configuration as left by the subtree's traversal. -/

/-- The walker-relevant fields of `config.Config`. -/
structure Config where
  repoRoot : FName
  validBuildFileNames : List FName
  goPrefix : FName
  depMode : DependencyMode
  protoMode : ProtoMode
deriving DecidableEq, Repr

/-- `config.Directive`: a key/value pair from a build-file comment. -/
abbrev Directive := FName × FName

/-- The outcome of probing one recognized build-file base name in a
directory (`os.Stat` / `ioutil.ReadFile` / `bf.Parse` in `visit`). -/
inductive BuildFileEntry where
  | absent
  | isDirEntry
  | readError
  | parseError
  | parsed (directives : List Directive)
deriving DecidableEq, Repr

/-- A successfully parsed build file: the recognized base name it was
found under and its parsed directives. -/
structure BuildFile where
  base : FName
  directives : List Directive
deriving DecidableEq, Repr

/-- The build-file scan loop of `visit` (walk.go lines 98-125): for each
recognized name in order — missing files and directories are skipped; a
read failure is an error; a second readable build file is the
multiple-files error (the first parsed file is kept); a parse failure is
an error; otherwise the file becomes the directory's existing file. -/
def scanBuildFiles (validNames : List FName)
    (bfs : List (FName × BuildFileEntry)) : Option BuildFile × Bool :=
  validNames.foldl (fun st base =>
    match (bfs.lookup base).getD .absent with
    | .absent => st
    | .isDirEntry => st
    | .readError => (st.1, true)
    | .parseError => if st.1.isSome then (st.1, true) else (none, true)
    | .parsed ds => if st.1.isSome then (st.1, true) else (some ⟨base, ds⟩, st.2))
    (none, false)

/-- Modelled from the spec: `config.ApplyDirectives` folds recognized
directive keys into a copy of the configuration.  The directives of this
engine (`ignore`, `exclude`, the proto-mode override) are consumed by the
merger, by the walker's excluded set, and by `InferProtoMode`
respectively, so the derived configuration here equals the input. -/
def applyDirectives (c : Config) (directives : List Directive) : Config :=
  c

/-- Modelled from the spec: `config.InferProtoMode` folds the proto-mode
override directive into a copy of the configuration. -/
def inferProtoMode (c : Config) (directives : List Directive) : Config :=
  directives.foldl (fun c d =>
    if d.1 = "proto".toList then
      match protoModeFromString (String.mk d.2) with
      | .ok pm => { c with protoMode := pm }
      | .error _ => c
    else c) c

/-- The configuration after one directory's directive processing
(walk.go lines 127-133). -/
def stepConfig (c : Config) (oldFile : Option BuildFile) : Config :=
  let directives := match oldFile with
    | some f => f.directives
    | none => []
  let c1 := match oldFile with
    | some _ => applyDirectives c directives
    | none => c
  inferProtoMode c1 directives

/-- The key of the `exclude` directive. -/
def excludeKey : FName := "exclude".toList

/-- The package name `go/build` ignores. -/
def documentationName : FName := "documentation".toList

/-- The fixture-data directory name. -/
def testdataName : FName := "testdata".toList

/-- The candidate package names a directory's source files declare
(unknown and `documentation` names dropped), as grouped by
`buildPackage`. -/
def pkgCandidateNames (fileMeta : List (FName × FName)) (pkgFiles : List FName) :
    List FName :=
  (pkgFiles.map (fun f => (fileMeta.lookup f).getD [])).filter
    (fun n => !n.isEmpty && !decide (n = documentationName))

/-- `buildPackage` (walk.go lines 211-297), with the per-file package
extraction (`goFileInfo`/`protoFileInfo`, whose source file is not
available) abstracted as the directory's `fileMeta` table mapping a
source file name to its declared package name (`[]` when unparseable),
and buildability abstracted as a predicate: files with unknown names and
the `documentation` package are dropped from grouping, the remaining
names form the candidate map, and `selectPackage` picks the package (or
none). -/
def buildPackageModel (isBuildable : GoPackage → Bool) (c : Config) (dir : FName)
    (fileMeta : List (FName × FName)) (pkgFiles : List FName)
    (hasTestdata : Bool) : Option GoPackage :=
  let packageMap := (pkgCandidateNames fileMeta pkgFiles).dedup.map
    (fun n => GoPackage.mk n hasTestdata)
  match selectPackage (defaultPackageName c.repoRoot c.goPrefix dir)
      isBuildable packageMap with
  | .ok pkg => some pkg
  | .error _ => none

/-- One `WalkFunc` callback: the arguments `visit` passes to `f`. -/
structure VisitRec where
  rel : List FName
  cfg : Config
  pkg : Option GoPackage
  oldFile : Option BuildFile
  isUpdateDir : Bool
deriving DecidableEq, Repr

/-- The traversal's fixed inputs: the buildability oracle and the
update-directory relative paths (`updateRels`, as segment lists). -/
structure WalkParams where
  isBuildable : GoPackage → Bool
  updateRels : List (List FName)

mutual
/-- A directory tree as the walker observes it: plain (non-directory)
entry names, the probe results for recognized build-file names, whether
`ioutil.ReadDir` fails, the per-file declared-package table, and the
subdirectories. -/
inductive RTree where
  | node (files : List FName) (buildFiles : List (FName × BuildFileEntry))
      (readDirFails : Bool) (fileMeta : List (FName × FName)) (children : RForest)
/-- The subdirectories of a directory: name-and-subtree pairs in
directory order. -/
inductive RForest where
  | fnil
  | fcons (name : FName) (t : RTree) (rest : RForest)
end

/-- The subdirectory names of a forest, in directory order. -/
def RForest.names : RForest → List FName
  | .fnil => []
  | .fcons n _ r => n :: names r

/-- What `visit` returns for one directory, together with the traversal
state: the configuration as the subtree's traversal left it, the
boolean `visit` returns (directory or descendant has a build file or
buildable code), and the callback records in invocation order. -/
structure VisitResult where
  cfg : Config
  hasPackage : Bool
  recs : List VisitRec
deriving Repr

/-- The state accumulated by the subdirectory loop of `visit` (walk.go
lines 174-182). -/
structure ForestResult where
  cfg : Config
  subdirHasPackage : Bool
  hasTestdata : Bool
  recs : List VisitRec
deriving Repr

mutual
/-- The post-order `visit` closure of `Walk` (walk.go lines 88-198),
with the captured configuration threaded explicitly: update-dir check;
build-file scan; directive folding (reassigning the shared
configuration); early return on an unreadable directory; proto-companion
exclusion; classification; recursion into classified subdirectories
(before the package is built, since test-data detection needs the
children's results); then the callback — with `nil` package on error or
out-of-scope directories — and the subtree's has-package result. -/
def visit (p : WalkParams) (c : Config) (dir : FName) (rel : List FName)
    (isUpd0 : Bool) : RTree → VisitResult
  | .node files bfs rdf meta children =>
    let isUpd := isUpd0 || p.updateRels.any (fun ur =>
      decide (ur = []) || decide (rel = ur) || ur.isPrefixOf rel)
    let scan := scanBuildFiles c.validBuildFileNames bfs
    let oldFile := scan.1
    let haveError := scan.2
    let c2 := stepConfig c oldFile
    let directives := match oldFile with
      | some f => f.directives
      | none => []
    let excludedD := (directives.filter (fun d => d.1 = excludeKey)).map Prod.snd
    if rdf then ⟨c2, false, []⟩
    else
      let ents := files.map (fun n => DirEnt.mk n false) ++
        (children.names.map (fun n => DirEnt.mk n true))
      let excluded := if c2.protoMode = .defaultProto
        then excludePbGoFiles (ents.map DirEnt.name) excludedD
        else excludedD
      let cl := classifyEntries c2.protoMode c2.depMode excluded ents
      let fr := visitForest p c2 dir rel isUpd cl.subdirs children
      let hasPackage := fr.subdirHasPackage || oldFile.isSome
      if haveError || !isUpd then
        ⟨fr.cfg, hasPackage, fr.recs ++ [⟨rel, fr.cfg, none, oldFile, isUpd⟩]⟩
      else
        let pkg := buildPackageModel p.isBuildable fr.cfg dir meta cl.pkgFiles
          fr.hasTestdata
        ⟨fr.cfg, hasPackage || pkg.isSome,
          fr.recs ++ [⟨rel, fr.cfg, pkg, oldFile, isUpd⟩]⟩

/-- The subdirectory loop: classified subdirectories are visited in
directory order, threading the shared configuration; a `testdata`
subdirectory whose subtree reported no package or build file marks the
directory as having companion test data. -/
def visitForest (p : WalkParams) (c : Config) (dir : FName) (rel : List FName)
    (isUpd : Bool) (subdirNames : List FName) : RForest → ForestResult
  | .fnil => ⟨c, false, false, []⟩
  | .fcons name t rest =>
    if name ∈ subdirNames then
      let r := visit p c (dir ++ '/' :: name) (rel ++ [name]) isUpd t
      let fr := visitForest p r.cfg dir rel isUpd subdirNames rest
      ⟨fr.cfg, r.hasPackage || fr.subdirHasPackage,
        (decide (name = testdataName) && !r.hasPackage) || fr.hasTestdata,
        r.recs ++ fr.recs⟩
    else visitForest p c dir rel isUpd subdirNames rest
end

/-- A buildability oracle that accepts every candidate (used by the
concrete walker scenarios). -/
def walkBuildable : GoPackage → Bool := fun _ => true

/-- Walk parameters for the concrete scenarios: every directory is an
update directory (`updateRels` contains the repository root, as when
`taze` is invoked on the whole repository). -/
def pW : WalkParams := ⟨walkBuildable, [[]]⟩

/-- A concrete base configuration with the default recognized build-file
names. -/
def cW : Config := ⟨"/repo".toList, ["BUILD.bazel".toList, "BUILD".toList],
  "example.com/repo".toList, .externalMode, .defaultProto⟩

/-- The two-sibling scenario for C1: the first child's build file carries
directives `ds`; the second child and the root carry none. -/
def c1tree (ds : List Directive) : RTree := .node [] [] false []
  (.fcons "a".toList (.node [] [("BUILD".toList, .parsed ds)] false [] .fnil)
    (.fcons "b".toList (.node [] [] false [] .fnil) .fnil))

/-- C1 counterexample: with a `proto legacy` directive in sibling `a`'s
build file only, sibling `b`'s callback — and the root's own callback —
receive a configuration whose proto mode is `legacy`, not the base
configuration: the derived configuration persists to sibling directories
and to directories visited later without being re-declared there. -/
theorem claim_C1_counterexample :
    cW.protoMode = .defaultProto ∧
    (∀ r ∈ (visit pW cW "/repo".toList [] false
        (c1tree [("proto".toList, "legacy".toList)])).recs,
      r.rel = ["b".toList] → r.cfg.protoMode = .legacyProto ∧ r.cfg ≠ cW) ∧
    (∃ r ∈ (visit pW cW "/repo".toList [] false
        (c1tree [("proto".toList, "legacy".toList)])).recs,
      r.rel = ["b".toList]) := by
  refine ⟨rfl, ?_, ?_⟩ <;> decide

/-- C1 amended: directives derive a new configuration value (the parent's
value itself is never mutated — `ApplyDirectives`/`InferProtoMode` build
a new value), but because `visit` reassigns the closure-captured
configuration, the derived value becomes the running configuration for
the remainder of the traversal: in the two-sibling scenario, the
directive-free sibling `b` visited after `a`, and the root's own
callback (which runs after the recursion), both receive exactly the
configuration derived from `a`'s directives.  The code's own
`TestLegacyProtos` relies on the descendant-inheritance half of this
behavior. -/
theorem claim_C1_amended_config_threading (rr gp : FName) (dm : DependencyMode)
    (pm : ProtoMode) (ds : List Directive) :
    (visit pW ⟨rr, ["BUILD".toList], gp, dm, pm⟩ "/r".toList [] false
        (c1tree ds)).recs =
      [⟨["a".toList], stepConfig ⟨rr, ["BUILD".toList], gp, dm, pm⟩
          (some ⟨"BUILD".toList, ds⟩), none, some ⟨"BUILD".toList, ds⟩, true⟩,
       ⟨["b".toList], stepConfig ⟨rr, ["BUILD".toList], gp, dm, pm⟩
          (some ⟨"BUILD".toList, ds⟩), none, none, true⟩,
       ⟨[], stepConfig ⟨rr, ["BUILD".toList], gp, dm, pm⟩
          (some ⟨"BUILD".toList, ds⟩), none, none, true⟩] := by
  have h1 : ∀ acc, excludePbGoFiles [] acc = acc := fun _ => rfl
  have h2 : excludePbGoFiles ["a".toList, "b".toList] [] = [] := rfl
  have h3 : ∀ c, inferProtoMode c [] = c := fun _ => rfl
  simp only [visit, visitForest, c1tree, scanBuildFiles, stepConfig, applyDirectives,
    h1, h2, h3, ite_self, classifyEntries, classifyStep, entrySkipped, buildPackageModel,
    pkgCandidateNames, selectPackage, RForest.names, startsWithDotOrUnderscore,
    vendorName, excludeKey]
  simp +decide [visit, visitForest, classifyEntries, classifyStep, entrySkipped,
    buildPackageModel, pkgCandidateNames, selectPackage, h1, h3, ite_self]

/-- The multiple-build-files scenario for C6: a root directory carrying
both `BUILD.bazel` and `BUILD` (both readable and parseable), with an
arbitrary child subtree. -/
def c6root (s : RTree) : RTree := .node []
  [("BUILD.bazel".toList, .parsed []), ("BUILD".toList, .parsed [])] false []
  (.fcons "sub".toList s .fnil)

/-- C6 counterexample: with both `BUILD.bazel` and `BUILD` present, the
root's callback receives `nil` for the package but receives the first
parsed build file (`BUILD.bazel`) — not `nil` — as the existing file. -/
theorem claim_C6_counterexample :
    (∀ r ∈ (visit pW cW "/repo".toList [] false (c6root
        (.node ["x.go".toList] [] false [("x.go".toList, "sub".toList)] .fnil))).recs,
      r.rel = [] → r.pkg = none ∧ r.oldFile = some ⟨"BUILD.bazel".toList, []⟩ ∧
        r.oldFile ≠ none) ∧
    (∃ r ∈ (visit pW cW "/repo".toList [] false (c6root
        (.node ["x.go".toList] [] false [("x.go".toList, "sub".toList)] .fnil))).recs,
      r.rel = []) := by
  refine ⟨?_, ?_⟩ <;> decide

/-- C6 amended: in a directory with more than one recognized build file
the walker reports the error and produces no package for that directory,
but the callback receives the first successfully parsed build file (not
none), the directory still counts as having a build file, and traversal
continues into subdirectories: the subtree's callback records all appear,
for every child subtree `s`. -/
theorem claim_C6_amended_multiple_build_files (s : RTree) :
    visit pW cW "/repo".toList [] false (c6root s) =
      ⟨(visit pW cW "/repo/sub".toList ["sub".toList] true s).cfg, true,
       (visit pW cW "/repo/sub".toList ["sub".toList] true s).recs ++
         [⟨[], (visit pW cW "/repo/sub".toList ["sub".toList] true s).cfg, none,
           some ⟨"BUILD.bazel".toList, []⟩, true⟩]⟩ := by
  have e1 : visit pW cW "/repo".toList [] false (c6root s) =
      ⟨(visitForest pW cW "/repo".toList [] true ["sub".toList]
          (.fcons "sub".toList s .fnil)).cfg,
       (visitForest pW cW "/repo".toList [] true ["sub".toList]
          (.fcons "sub".toList s .fnil)).subdirHasPackage || true,
       (visitForest pW cW "/repo".toList [] true ["sub".toList]
          (.fcons "sub".toList s .fnil)).recs ++
         [⟨[], (visitForest pW cW "/repo".toList [] true ["sub".toList]
            (.fcons "sub".toList s .fnil)).cfg, none,
          some ⟨"BUILD.bazel".toList, []⟩, true⟩]⟩ := rfl
  have e2 : visitForest pW cW "/repo".toList [] true ["sub".toList]
      (.fcons "sub".toList s .fnil) =
      ⟨(visit pW cW "/repo/sub".toList ["sub".toList] true s).cfg,
       (visit pW cW "/repo/sub".toList ["sub".toList] true s).hasPackage || false,
       false,
       (visit pW cW "/repo/sub".toList ["sub".toList] true s).recs ++ []⟩ := rfl
  rw [e1, e2]
  simp

/-! ## Test-data detection (C7)

The walker recurses before building a directory's package and marks the
package as having companion test data exactly when a `testdata`
subdirectory's subtree reported no build file and no buildable package.
To settle that claim, `visit`'s recursive return value is characterized,
for error-free and directive-free subtrees, against a direct recursive
predicate ("the subtree contains a build file or a buildable package"). -/

/-- Whether a directory's classified sources yield a buildable package
under `selectPackage`'s policy, stated without reference to the
test-data flag. -/
def dirHasBuildablePackage (ib : GoPackage → Bool) (c : Config) (dir : FName)
    (fileMeta : List (FName × FName)) (pkgFiles : List FName) : Bool :=
  match (pkgCandidateNames fileMeta pkgFiles).dedup.filter
      (fun n => ib ⟨n, false⟩) with
  | [] => false
  | [_] => true
  | fl => (fl.find? (fun n =>
      decide (n = defaultPackageName c.repoRoot c.goPrefix dir))).isSome

/-- When the buildability oracle ignores the test-data flag, whether
`buildPackage` yields a package does not depend on that flag. -/
theorem isSome_buildPackageModel (ib : GoPackage → Bool) (c : Config) (dir : FName)
    (fileMeta : List (FName × FName)) (pkgFiles : List FName) (td : Bool)
    (hib : ∀ n a b, ib ⟨n, a⟩ = ib ⟨n, b⟩) :
    (buildPackageModel ib c dir fileMeta pkgFiles td).isSome =
      dirHasBuildablePackage ib c dir fileMeta pkgFiles := by
  unfold buildPackageModel dirHasBuildablePackage
  have hfilter : ((pkgCandidateNames fileMeta pkgFiles).dedup.map
        (fun n => GoPackage.mk n td)).filter ib =
      ((pkgCandidateNames fileMeta pkgFiles).dedup.filter
        (fun n => ib ⟨n, false⟩)).map (fun n => GoPackage.mk n td) := by
    rw [List.filter_map]
    congr 1
    apply List.filter_congr
    intro n _
    exact hib n td false
  unfold selectPackage
  dsimp only
  rw [hfilter]
  generalize (pkgCandidateNames fileMeta pkgFiles).dedup.filter
    (fun n => ib ⟨n, false⟩) = fl
  cases fl with
  | nil => rfl
  | cons x xs =>
    cases xs with
    | nil => rfl
    | cons y rest =>
      simp only [List.map_cons]
      have E : (GoPackage.mk x td :: GoPackage.mk y td ::
          rest.map (fun n => GoPackage.mk n td)).find?
          (fun p : GoPackage =>
            decide (p.name = defaultPackageName c.repoRoot c.goPrefix dir)) =
          ((x :: y :: rest).find? (fun n =>
            decide (n = defaultPackageName c.repoRoot c.goPrefix dir))).map
              (fun n => GoPackage.mk n td) := by
        rw [show (GoPackage.mk x td :: GoPackage.mk y td ::
          rest.map (fun n => GoPackage.mk n td)) =
            (x :: y :: rest).map (fun n => GoPackage.mk n td) from rfl,
          List.find?_map]
        rfl
      rw [E]
      cases (x :: y :: rest).find? (fun n =>
          decide (n = defaultPackageName c.repoRoot c.goPrefix dir)) with
      | none => rfl
      | some q => rfl

mutual
/-- A subtree is clean when no directory in it fails to read, no
build-file probe errors (read, parse, or multiple files), and the found
build files carry no directives. -/
def cleanTree (vn : List FName) : RTree → Bool
  | .node _ bfs rdf _ children =>
    !rdf && !(scanBuildFiles vn bfs).2 &&
      (match (scanBuildFiles vn bfs).1 with
       | some f => f.directives.isEmpty
       | none => true) &&
      cleanForest vn children
/-- All subtrees of the forest are clean. -/
def cleanForest (vn : List FName) : RForest → Bool
  | .fnil => true
  | .fcons _ t rest => cleanTree vn t && cleanForest vn rest
end

mutual
/-- The specification-side predicate for C7: the directory or one of its
(classified) subdirectories contains a build file or a buildable
package. -/
def containsPkgOrBuildFile (p : WalkParams) (c : Config) (dir : FName) :
    RTree → Bool
  | .node files bfs _ meta children =>
    let ents := files.map (fun n => DirEnt.mk n false) ++
      (children.names.map (fun n => DirEnt.mk n true))
    let excluded := if c.protoMode = .defaultProto
      then excludePbGoFiles (ents.map DirEnt.name) []
      else []
    let cl := classifyEntries c.protoMode c.depMode excluded ents
    (scanBuildFiles c.validBuildFileNames bfs).1.isSome ||
      dirHasBuildablePackage p.isBuildable c dir meta cl.pkgFiles ||
      forestContains p c dir cl.subdirs children
/-- Some classified subdirectory's subtree contains a build file or a
buildable package. -/
def forestContains (p : WalkParams) (c : Config) (dir : FName)
    (subdirNames : List FName) : RForest → Bool
  | .fnil => false
  | .fcons name t rest =>
    (decide (name ∈ subdirNames) &&
        containsPkgOrBuildFile p c (dir ++ '/' :: name) t) ||
      forestContains p c dir subdirNames rest
end

/-- The specification-side test-data mark: some classified subdirectory
is named `testdata` and its subtree contains no build file and no
buildable package. -/
def forestTestdata (p : WalkParams) (c : Config) (dir : FName)
    (subdirNames : List FName) : RForest → Bool
  | .fnil => false
  | .fcons name t rest =>
    (decide (name ∈ subdirNames) && decide (name = testdataName) &&
        !containsPkgOrBuildFile p c (dir ++ '/' :: name) t) ||
      forestTestdata p c dir subdirNames rest

/-- The directory-entry list `visit` classifies: plain files, then the
subdirectory names. -/
def nodeEnts (files : List FName) (children : RForest) : List DirEnt :=
  files.map (fun n => DirEnt.mk n false) ++
    children.names.map (fun n => DirEnt.mk n true)

/-- The classification `visit` performs in a directory whose directives
contribute the excluded names `dexcl`. -/
def nodeClassify (c : Config) (dexcl : List FName) (files : List FName)
    (children : RForest) : Classified :=
  classifyEntries c.protoMode c.depMode
    (if c.protoMode = .defaultProto
      then excludePbGoFiles ((nodeEnts files children).map DirEnt.name) dexcl
      else dexcl)
    (nodeEnts files children)

/-- Directive-free directories leave the configuration unchanged. -/
theorem stepConfig_clean (c : Config) (oldFile : Option BuildFile)
    (h : ∀ f, oldFile = some f → f.directives = []) : stepConfig c oldFile = c := by
  cases oldFile with
  | none => rfl
  | some f =>
    have hd : f.directives = [] := h f rfl
    unfold stepConfig applyDirectives
    dsimp only
    rw [hd]
    rfl

/-- One unfolding of `visit` in an update directory whose build-file scan
is error-free and directive-free and whose listing is readable. -/
theorem visit_node_clean (p : WalkParams) (c : Config) (dir : FName)
    (rel : List FName) (files : List FName) (bfs : List (FName × BuildFileEntry))
    (meta : List (FName × FName)) (children : RForest)
    (hscan2 : (scanBuildFiles c.validBuildFileNames bfs).2 = false)
    (hds : ∀ f, (scanBuildFiles c.validBuildFileNames bfs).1 = some f →
      f.directives = []) :
    visit p c dir rel true (.node files bfs false meta children) =
      ⟨(visitForest p c dir rel true (nodeClassify c [] files children).subdirs
          children).cfg,
       ((visitForest p c dir rel true (nodeClassify c [] files children).subdirs
            children).subdirHasPackage ||
          (scanBuildFiles c.validBuildFileNames bfs).1.isSome) ||
         (buildPackageModel p.isBuildable
           (visitForest p c dir rel true (nodeClassify c [] files children).subdirs
             children).cfg dir meta (nodeClassify c [] files children).pkgFiles
           (visitForest p c dir rel true (nodeClassify c [] files children).subdirs
             children).hasTestdata).isSome,
       (visitForest p c dir rel true (nodeClassify c [] files children).subdirs
           children).recs ++
         [⟨rel, (visitForest p c dir rel true (nodeClassify c [] files children).subdirs
             children).cfg,
           buildPackageModel p.isBuildable
             (visitForest p c dir rel true (nodeClassify c [] files children).subdirs
               children).cfg dir meta (nodeClassify c [] files children).pkgFiles
             (visitForest p c dir rel true (nodeClassify c [] files children).subdirs
               children).hasTestdata,
           (scanBuildFiles c.validBuildFileNames bfs).1, true⟩]⟩ := by
  rcases hscan : scanBuildFiles c.validBuildFileNames bfs with ⟨oldF, haveErr⟩
  have h2 : haveErr = false := by
    rw [hscan] at hscan2
    exact hscan2
  subst h2
  have hD : ∀ f, oldF = some f → f.directives = [] := by
    intro f hf
    apply hds
    rw [hscan, hf]
  have hstep : stepConfig c oldF = c := stepConfig_clean c oldF hD
  simp only [visit]
  rw [hscan]
  cases oldF with
  | none =>
    simp only [hstep, Bool.true_or, Bool.not_true, Bool.or_false, List.filter_nil,
      List.map_nil, Bool.false_eq_true, if_false, nodeClassify, nodeEnts]
  | some f =>
    have hd : f.directives = [] := hD f rfl
    simp only [hstep, hd, Bool.true_or, Bool.not_true, Bool.or_false, List.filter_nil,
      List.map_nil, Bool.false_eq_true, if_false, nodeClassify, nodeEnts]

mutual
/-- For clean update subtrees, `visit` leaves the configuration
unchanged, and its return value coincides with the direct recursive
predicate "this directory or a classified subdirectory contains a build
file or a buildable package". -/
theorem visit_clean_char (p : WalkParams) (c : Config) (dir : FName)
    (rel : List FName) (t : RTree)
    (hclean : cleanTree c.validBuildFileNames t = true)
    (hib : ∀ n a b, p.isBuildable ⟨n, a⟩ = p.isBuildable ⟨n, b⟩) :
    (visit p c dir rel true t).cfg = c ∧
    (visit p c dir rel true t).hasPackage = containsPkgOrBuildFile p c dir t := by
  cases t with
  | node files bfs rdf meta children =>
    have hC := hclean
    unfold cleanTree at hC
    rw [Bool.and_eq_true, Bool.and_eq_true, Bool.and_eq_true] at hC
    obtain ⟨⟨⟨h1, h2⟩, h3⟩, h4⟩ := hC
    have hrdf : rdf = false := by
      cases rdf
      · rfl
      · exact absurd h1 (by simp)
    subst hrdf
    have hscan2 : (scanBuildFiles c.validBuildFileNames bfs).2 = false := by
      cases hx : (scanBuildFiles c.validBuildFileNames bfs).2
      · rfl
      · rw [hx] at h2
        exact absurd h2 (by simp)
    have hds : ∀ f, (scanBuildFiles c.validBuildFileNames bfs).1 = some f →
        f.directives = [] := by
      intro f hf
      rw [hf] at h3
      simpa using h3
    rw [visit_node_clean p c dir rel files bfs meta children hscan2 hds]
    have hF := visitForest_clean_char p c dir rel
      (nodeClassify c [] files children).subdirs children h4 hib
    refine ⟨hF.1, ?_⟩
    show (((visitForest p c dir rel true (nodeClassify c [] files children).subdirs
          children).subdirHasPackage ||
        (scanBuildFiles c.validBuildFileNames bfs).1.isSome) ||
      (buildPackageModel p.isBuildable
        (visitForest p c dir rel true (nodeClassify c [] files children).subdirs
          children).cfg dir meta (nodeClassify c [] files children).pkgFiles
        (visitForest p c dir rel true (nodeClassify c [] files children).subdirs
          children).hasTestdata).isSome) = _
    rw [hF.1, hF.2.1, isSome_buildPackageModel p.isBuildable c dir meta _ _ hib]
    show _ = containsPkgOrBuildFile p c dir (.node files bfs false meta children)
    have hrhs : containsPkgOrBuildFile p c dir (.node files bfs false meta children) =
        ((scanBuildFiles c.validBuildFileNames bfs).1.isSome ||
          dirHasBuildablePackage p.isBuildable c dir meta
            (nodeClassify c [] files children).pkgFiles ||
          forestContains p c dir (nodeClassify c [] files children).subdirs
            children) := by
      simp only [containsPkgOrBuildFile, nodeClassify, nodeEnts]
    rw [hrhs]
    cases (scanBuildFiles c.validBuildFileNames bfs).1.isSome <;>
      cases dirHasBuildablePackage p.isBuildable c dir meta
        (nodeClassify c [] files children).pkgFiles <;>
      cases forestContains p c dir (nodeClassify c [] files children).subdirs
        children <;> rfl

/-- For clean forests, the subdirectory loop leaves the configuration
unchanged, and its accumulated has-package / has-testdata results
coincide with the direct recursive predicates. -/
theorem visitForest_clean_char (p : WalkParams) (c : Config) (dir : FName)
    (rel : List FName) (subdirNames : List FName) (f : RForest)
    (hclean : cleanForest c.validBuildFileNames f = true)
    (hib : ∀ n a b, p.isBuildable ⟨n, a⟩ = p.isBuildable ⟨n, b⟩) :
    (visitForest p c dir rel true subdirNames f).cfg = c ∧
    (visitForest p c dir rel true subdirNames f).subdirHasPackage =
      forestContains p c dir subdirNames f ∧
    (visitForest p c dir rel true subdirNames f).hasTestdata =
      forestTestdata p c dir subdirNames f := by
  cases f with
  | fnil => exact ⟨rfl, rfl, rfl⟩
  | fcons name t rest =>
    have hC := hclean
    unfold cleanForest at hC
    rw [Bool.and_eq_true] at hC
    obtain ⟨hct, hcf⟩ := hC
    have hT := visit_clean_char p c (dir ++ '/' :: name) (rel ++ [name]) t hct hib
    by_cases hmem : name ∈ subdirNames
    · have e : visitForest p c dir rel true subdirNames (.fcons name t rest) =
          ⟨(visitForest p (visit p c (dir ++ '/' :: name) (rel ++ [name]) true t).cfg
              dir rel true subdirNames rest).cfg,
            (visit p c (dir ++ '/' :: name) (rel ++ [name]) true t).hasPackage ||
              (visitForest p (visit p c (dir ++ '/' :: name) (rel ++ [name]) true
                t).cfg dir rel true subdirNames rest).subdirHasPackage,
            (decide (name = testdataName) &&
                !(visit p c (dir ++ '/' :: name) (rel ++ [name]) true t).hasPackage) ||
              (visitForest p (visit p c (dir ++ '/' :: name) (rel ++ [name]) true
                t).cfg dir rel true subdirNames rest).hasTestdata,
            (visit p c (dir ++ '/' :: name) (rel ++ [name]) true t).recs ++
              (visitForest p (visit p c (dir ++ '/' :: name) (rel ++ [name]) true
                t).cfg dir rel true subdirNames rest).recs⟩ := by
        simp only [visitForest, if_pos hmem]
      rw [e, hT.1]
      have hR := visitForest_clean_char p c dir rel subdirNames rest hcf hib
      refine ⟨hR.1, ?_, ?_⟩
      · rw [hT.2, hR.2.1]
        show (containsPkgOrBuildFile p c (dir ++ '/' :: name) t ||
            forestContains p c dir subdirNames rest) =
          forestContains p c dir subdirNames (.fcons name t rest)
        have : forestContains p c dir subdirNames (.fcons name t rest) =
            ((decide (name ∈ subdirNames) &&
              containsPkgOrBuildFile p c (dir ++ '/' :: name) t) ||
              forestContains p c dir subdirNames rest) := by
          simp only [forestContains]
        rw [this, decide_eq_true hmem, Bool.true_and]
      · rw [hT.2, hR.2.2]
        show ((decide (name = testdataName) &&
            !containsPkgOrBuildFile p c (dir ++ '/' :: name) t) ||
            forestTestdata p c dir subdirNames rest) =
          forestTestdata p c dir subdirNames (.fcons name t rest)
        have : forestTestdata p c dir subdirNames (.fcons name t rest) =
            ((decide (name ∈ subdirNames) && decide (name = testdataName) &&
              !containsPkgOrBuildFile p c (dir ++ '/' :: name) t) ||
              forestTestdata p c dir subdirNames rest) := by
          simp only [forestTestdata]
        rw [this, decide_eq_true hmem, Bool.true_and]
    · have e : visitForest p c dir rel true subdirNames (.fcons name t rest) =
          visitForest p c dir rel true subdirNames rest := by
        simp only [visitForest, if_neg hmem]
      rw [e]
      have hR := visitForest_clean_char p c dir rel subdirNames rest hcf hib
      refine ⟨hR.1, ?_, ?_⟩
      · rw [hR.2.1]
        have : forestContains p c dir subdirNames (.fcons name t rest) =
            ((decide (name ∈ subdirNames) &&
              containsPkgOrBuildFile p c (dir ++ '/' :: name) t) ||
              forestContains p c dir subdirNames rest) := by
          simp only [forestContains]
        rw [this, decide_eq_false hmem, Bool.false_and, Bool.false_or]
      · rw [hR.2.2]
        have : forestTestdata p c dir subdirNames (.fcons name t rest) =
            ((decide (name ∈ subdirNames) && decide (name = testdataName) &&
              !containsPkgOrBuildFile p c (dir ++ '/' :: name) t) ||
              forestTestdata p c dir subdirNames rest) := by
          simp only [forestTestdata]
        rw [this, decide_eq_false hmem, Bool.false_and, Bool.false_and, Bool.false_or]
end

/-- The subdirectories of a forest as name-and-subtree pairs. -/
def RForest.entries : RForest → List (FName × RTree)
  | .fnil => []
  | .fcons n t r => (n, t) :: entries r

/-- The test-data mark holds exactly when some classified subdirectory
named `testdata` has a subtree free of build files and buildable
packages. -/
theorem forestTestdata_iff (p : WalkParams) (c : Config) (dir : FName)
    (subdirNames : List FName) (f : RForest) :
    forestTestdata p c dir subdirNames f = true ↔
      ∃ e ∈ f.entries, e.1 ∈ subdirNames ∧ e.1 = testdataName ∧
        containsPkgOrBuildFile p c (dir ++ '/' :: e.1) e.2 = false := by
  cases f with
  | fnil =>
    constructor
    · intro h
      rw [show forestTestdata p c dir subdirNames .fnil = false from rfl] at h
      exact nomatch h
    · rintro ⟨e, he, _⟩
      exact (List.not_mem_nil e he).elim
  | fcons name t rest =>
    have ih := forestTestdata_iff p c dir subdirNames rest
    simp only [forestTestdata, RForest.entries, Bool.or_eq_true, Bool.and_eq_true,
      decide_eq_true_eq, Bool.not_eq_true', ih, List.mem_cons]
    constructor
    · rintro (⟨⟨hmem, hname⟩, hc⟩ | ⟨e, he, h1, h2, h3⟩)
      · exact ⟨(name, t), Or.inl rfl, hmem, hname, hc⟩
      · exact ⟨e, Or.inr he, h1, h2, h3⟩
    · rintro ⟨e, (rfl | he), h1, h2, h3⟩
      · exact Or.inl ⟨⟨h1, h2⟩, h3⟩
      · exact Or.inr ⟨e, he, h1, h2, h3⟩

/-- `selectPackage` only ever returns a member of the candidate map. -/
theorem selectPackage_ok_mem {d : FName} {ib : GoPackage → Bool}
    {pm : List GoPackage} {pkg : GoPackage}
    (h : selectPackage d ib pm = .ok pkg) : pkg ∈ pm := by
  unfold selectPackage at h
  rcases hfl : pm.filter ib with _ | ⟨x, _ | ⟨y, rest⟩⟩
  · rw [hfl] at h
    exact nomatch h
  · rw [hfl] at h
    have : pkg = x := by
      injection h with h'
      exact h'.symm
    subst this
    exact List.mem_of_mem_filter (hfl ▸ List.mem_singleton_self pkg)
  · rw [hfl] at h
    dsimp only at h
    rcases hq : (x :: y :: rest).find?
        (fun p => decide (p.name = d)) with _ | q
    · rw [show ((x :: y :: rest).find? (fun p => decide (p.name = d))) = none
        from hq] at h
      exact nomatch h
    · rw [show ((x :: y :: rest).find? (fun p => decide (p.name = d))) = some q
        from hq] at h
      have : pkg = q := by
        injection h with h'
        exact h'.symm
      subst this
      have : pkg ∈ x :: y :: rest := List.mem_of_find?_eq_some hq
      exact List.mem_of_mem_filter (hfl ▸ this)

/-- A package built by `buildPackage` carries exactly the test-data flag
the walker computed from the subdirectory recursion. -/
theorem hasTestdata_of_buildPackageModel {ib : GoPackage → Bool} {c : Config}
    {dir : FName} {fileMeta : List (FName × FName)} {pkgFiles : List FName}
    {td : Bool} {pkg : GoPackage}
    (h : buildPackageModel ib c dir fileMeta pkgFiles td = some pkg) :
    pkg.hasTestdata = td := by
  unfold buildPackageModel at h
  dsimp only at h
  rcases hsel : selectPackage (defaultPackageName c.repoRoot c.goPrefix dir) ib
      ((pkgCandidateNames fileMeta pkgFiles).dedup.map
        (fun n => GoPackage.mk n td)) with e | q
  · rw [hsel] at h
    exact nomatch h
  · rw [hsel] at h
    have hq : pkg = q := by
      injection h with h'
      exact h'.symm
    subst hq
    have hmem := selectPackage_ok_mem hsel
    obtain ⟨n, _, hn⟩ := List.mem_map.mp hmem
    rw [← hn]

/-- C7: for a clean update directory (readable, error-free and
directive-free build-file probes throughout, with a buildability oracle
that ignores the test-data flag), the package the walker builds for the
directory — necessarily after recursing into the subdirectories, since
its test-data flag is computed from their results — is marked as having
a companion test-data directory precisely when some classified
subdirectory named `testdata` roots a subtree containing no build file
and no buildable package; a `testdata` subtree that does contain
buildable sources or a build file is recursed into like any normal
package directory and produces no mark. -/
theorem claim_C7_testdata_marking (p : WalkParams) (c : Config) (dir : FName)
    (rel : List FName) (files : List FName) (bfs : List (FName × BuildFileEntry))
    (meta : List (FName × FName)) (children : RForest)
    (hclean : cleanTree c.validBuildFileNames
      (.node files bfs false meta children) = true)
    (hib : ∀ n a b, p.isBuildable ⟨n, a⟩ = p.isBuildable ⟨n, b⟩)
    (rec : VisitRec) (pkg : GoPackage)
    (hlast : (visit p c dir rel true
      (.node files bfs false meta children)).recs.getLast? = some rec)
    (hpkg : rec.pkg = some pkg) :
    (pkg.hasTestdata = true ↔
      ∃ e ∈ children.entries, e.1 ∈ (nodeClassify c [] files children).subdirs ∧
        e.1 = testdataName ∧
        containsPkgOrBuildFile p c (dir ++ '/' :: e.1) e.2 = false) := by
  have hC := hclean
  unfold cleanTree at hC
  rw [Bool.and_eq_true, Bool.and_eq_true, Bool.and_eq_true] at hC
  obtain ⟨⟨⟨_, h2⟩, h3⟩, h4⟩ := hC
  have hscan2 : (scanBuildFiles c.validBuildFileNames bfs).2 = false := by
    cases hx : (scanBuildFiles c.validBuildFileNames bfs).2
    · rfl
    · rw [hx] at h2
      exact absurd h2 (by simp)
  have hds : ∀ f, (scanBuildFiles c.validBuildFileNames bfs).1 = some f →
      f.directives = [] := by
    intro f hf
    rw [hf] at h3
    simpa using h3
  rw [visit_node_clean p c dir rel files bfs meta children hscan2 hds] at hlast
  have hF := visitForest_clean_char p c dir rel
    (nodeClassify c [] files children).subdirs children h4 hib
  have hlast2 : some (⟨rel,
      (visitForest p c dir rel true (nodeClassify c [] files children).subdirs
        children).cfg,
      buildPackageModel p.isBuildable
        (visitForest p c dir rel true (nodeClassify c [] files children).subdirs
          children).cfg dir meta (nodeClassify c [] files children).pkgFiles
        (visitForest p c dir rel true (nodeClassify c [] files children).subdirs
          children).hasTestdata,
      (scanBuildFiles c.validBuildFileNames bfs).1, true⟩ : VisitRec) = some rec := by
    rw [← hlast]
    exact (List.getLast?_concat _).symm
  have hrec := Option.some.inj hlast2
  rw [← hrec] at hpkg
  have htd : pkg.hasTestdata =
      (visitForest p c dir rel true (nodeClassify c [] files children).subdirs
        children).hasTestdata :=
    hasTestdata_of_buildPackageModel hpkg
  rw [htd, hF.2.2]
  exact forestTestdata_iff p c dir (nodeClassify c [] files children).subdirs children

/-- Witness for C7: in the concrete scenario (sole source `a.go`
declaring package `raw`, empty `testdata` child) the built package is
marked, and the theorem's equivalence applies. -/
theorem claim_C7_testdata_marking_witness :
    (true = true ↔
      ∃ e ∈ (RForest.fcons "testdata".toList (.node [] [] false [] .fnil)
          .fnil).entries,
        e.1 ∈ (nodeClassify cW [] ["a.go".toList]
          (.fcons "testdata".toList (.node [] [] false [] .fnil) .fnil)).subdirs ∧
        e.1 = testdataName ∧
        containsPkgOrBuildFile pW cW ("/repo/raw".toList ++ '/' :: e.1) e.2 =
          false) := by
  have h := claim_C7_testdata_marking pW cW "/repo/raw".toList ["raw".toList]
    ["a.go".toList] [] [("a.go".toList, "raw".toList)]
    (.fcons "testdata".toList (.node [] [] false [] .fnil) .fnil)
    (by decide) (fun n a b => rfl)
    ⟨["raw".toList], cW, some ⟨"raw".toList, true⟩, none, true⟩
    ⟨"raw".toList, true⟩ (by decide) rfl
  exact h

end Taze
